import Mathlib

/-!
Shallow embedding of the gs2ew repository (saturation-time detection in
`src/gs2ew/utils/gs2_output.py`, the plot renderers in
`src/gs2ew/postprocess/fields.py` and `src/gs2ew/postprocess/transfer.py`).

Numbers are modelled as real numbers extended with the IEEE special values
NaN, +inf and -inf (`NFloat`): the Python code runs on float64, whose special
values drive the control flow under scrutiny (NaN growth-rate entries,
`np.log 0 = -inf`, the NaN-rejecting comparison semantics).  Exceptions raised
by Python / numpy are modelled with `Except PyErr`.  Figure drawing and file
writing are elided: they have no effect on the data-flow and error behaviour
the claims are about; every dataset access, shape check and reduction of the
source is kept.
-/

set_option maxHeartbeats 1000000

/-- Errors raised by the Python code paths that the embedding models.
`keyError` is `ds[name]` on an absent variable, `indexError` is an
out-of-range element access such as `t[1]` on a length-1 array,
`conversionError` is `int()` applied to the inf/nan produced by a zero first
time step, and `valueError` covers the numpy `ValueError`s (broadcasting a
mismatched shape, `nanargmax` of an all-NaN slice). `invalidArgument` models
the `InvalidArgument` condition named by the specification; no code path
produces it. -/
inductive PyErr where
  | keyError : PyErr
  | indexError : PyErr
  | conversionError : PyErr
  | valueError : PyErr
  | invalidArgument : PyErr
deriving DecidableEq

/-- A float64 value: NaN, -inf, +inf or a finite real. -/
inductive NFloat where
  | nan : NFloat
  | ninf : NFloat
  | pinf : NFloat
  | val : ℝ → NFloat

/-- Whether a float is NaN. -/
def NFloat.isNan : NFloat → Bool
  | .nan => true
  | _ => false

/-- IEEE-754 subtraction on the modelled values (NaN propagates, and
inf - inf of equal signs is NaN). -/
def NFloat.sub : NFloat → NFloat → NFloat
  | .nan, _ => .nan
  | _, .nan => .nan
  | .pinf, .pinf => .nan
  | .pinf, _ => .pinf
  | .ninf, .ninf => .nan
  | .ninf, _ => .ninf
  | .val _, .pinf => .ninf
  | .val _, .ninf => .pinf
  | .val x, .val y => .val (x - y)

/-- IEEE-754 division of a modelled value by a finite real (the denominators
produced by the code are differences of time samples, hence finite; a zero
denominator is the positive zero produced by `a - a`). -/
noncomputable def NFloat.divR : NFloat → ℝ → NFloat
  | .nan, _ => .nan
  | .pinf, d => if d < 0 then .ninf else .pinf
  | .ninf, d => if d < 0 then .pinf else .ninf
  | .val x, d =>
      if d = 0 then (if x < 0 then .ninf else if x = 0 then .nan else .pinf)
      else .val (x / d)

/-- IEEE-754 less-than: any comparison with NaN is false. -/
noncomputable def NFloat.ltBool : NFloat → NFloat → Bool
  | .nan, _ => false
  | _, .nan => false
  | .ninf, .ninf => false
  | .ninf, _ => true
  | .pinf, _ => false
  | .val _, .pinf => true
  | .val _, .ninf => false
  | .val x, .val y => decide (x < y)

/-- Elementwise `np.log` on a float64 value: the log of a negative number is
NaN, the log of zero is -inf. -/
noncomputable def npLogVal (x : ℝ) : NFloat :=
  if x < 0 then .nan else if x = 0 then .ninf else .val (Real.log x)

/-- `np.log` applied to a 1-D array. -/
noncomputable def npLog (xs : List ℝ) : List NFloat := xs.map npLogVal

/-- Python `int()` on a finite float: truncation toward zero. -/
noncomputable def pyInt (q : ℝ) : ℤ := if q < 0 then ⌈q⌉ else ⌊q⌋

/-- Python slice `xs[s:]`, with Python semantics for a negative start. -/
def sliceFrom (s : ℤ) (xs : List α) : List α :=
  xs.drop (if s < 0 then ((xs.length : ℤ) + s).toNat else s.toNat)

/-- Python slice `xs[:e]`, with Python semantics for a negative stop; in
particular `xs[:-idx]` for `idx = 0` is `xs[:0] = []`. -/
def sliceTo (e : ℤ) (xs : List α) : List α :=
  xs.take (if e < 0 then ((xs.length : ℤ) + e).toNat else e.toNat)

/-- A numpy elementwise binary operation on two 1-D arrays with numpy
broadcasting: equal lengths are zipped, a length-1 operand is broadcast,
anything else is a shape-mismatch `ValueError` (`none`). -/
def broadcast2 (f : α → β → γ) (xs : List α) (ys : List β) : Option (List γ) :=
  if xs.length = ys.length then some (List.zipWith f xs ys)
  else
    match xs, ys with
    | [x], ys => some (ys.map (fun y => f x y))
    | xs, [y] => some (xs.map (fun x => f x y))
    | _, _ => none

/-- Numpy sliced assignment `base[s:] = rhs`: the right-hand side must have
exactly the length of the slice or be a broadcastable length-1 array,
otherwise numpy raises a `ValueError` (`none`). -/
def assignSlice (base : List α) (s : ℤ) (rhs : List α) : Option (List α) :=
  let e := if s < 0 then ((base.length : ℤ) + s).toNat else s.toNat
  if rhs.length = base.length - e then some (base.take e ++ rhs)
  else
    match rhs with
    | [x] => some (base.take e ++ List.replicate (base.length - e) x)
    | _ => none

/-- Numpy boolean-mask selection `xs[bs]` for arrays of equal length. -/
def maskFilter : List α → List Bool → List α
  | [], _ => []
  | _, [] => []
  | x :: xs, b :: bs => if b then x :: maskFilter xs bs else maskFilter xs bs

/-- The scan inside `np.argmax`: keep the current best value and its index,
move to a later element only when it is strictly greater, so the first
occurrence of the maximum wins. -/
noncomputable def argmaxGo : List NFloat → NFloat → ℕ → ℕ → ℕ
  | [], _, best, _ => best
  | y :: ys, m, best, i =>
      if NFloat.ltBool m y then argmaxGo ys y i (i + 1) else argmaxGo ys m best (i + 1)

/-- `np.argmax` on a 1-D float array (callers below never pass `[]`, because
`np.nanargmax` has already rejected the all-NaN — in particular empty —
slice). -/
noncomputable def argmaxIdx : List NFloat → ℕ
  | [] => 0
  | x :: xs => argmaxGo xs x 0 1

/-- `np.nanargmax` on a 1-D array: raise `ValueError` when every entry is
NaN, otherwise substitute -inf for every NaN and take `np.argmax`. -/
noncomputable def nanargmax (xs : List NFloat) : Except PyErr ℕ :=
  if xs.all NFloat.isNan then .error .valueError
  else .ok (argmaxIdx (xs.map (fun x => if x.isNan then NFloat.ninf else x)))

/-- Lines 43-53 of `gs2_output.py`: extract `t` and `phi2` (done by the
dataset wrapper below), linearise with `np.log`, convert the window to an
index offset with `int(window / (t[1] - t[0]))`, allocate an all-NaN array
and assign the vectorised finite difference
`(logphi2[idx:] - logphi2[:-idx]) / (t[idx:] - t[:-idx])` into its
`[idx:]` slice. -/
noncomputable def growthRateArr (t phi2 : List ℝ) (window : ℝ) :
    Except PyErr (List NFloat) :=
  match t with
  | t0 :: t1 :: _ =>
    let logphi2 := npLog phi2
    if t1 - t0 = 0 then .error .conversionError
    else
      let idx := pyInt (window / (t1 - t0))
      match broadcast2 NFloat.sub (sliceFrom idx logphi2) (sliceTo (-idx) logphi2) with
      | none => .error .valueError
      | some num =>
        match broadcast2 (fun a b => a - b) (sliceFrom idx t) (sliceTo (-idx) t) with
        | none => .error .valueError
        | some den =>
          match broadcast2 NFloat.divR num den with
          | none => .error .valueError
          | some rhs =>
            match assignSlice (List.replicate t.length NFloat.nan) idx rhs with
            | none => .error .valueError
            | some growth_rate => .ok growth_rate
  | _ => .error .indexError

/-- Lines 56-63 of `gs2_output.py` on top of the growth-rate array:
`max_growth_idx = np.nanargmax(growth_rate)`, then
`saturated_times = t[max_growth_idx:][growth_rate[max_growth_idx:] < threshold]`
and the first saturated time (or the NaN sentinel, modelled as `none`) is
returned. -/
noncomputable def detect_saturation_time (t phi2 : List ℝ) (window threshold : ℝ) :
    Except PyErr (Option ℝ) :=
  match growthRateArr t phi2 window with
  | .error e => .error e
  | .ok growth_rate =>
    match nanargmax growth_rate with
    | .error e => .error e
    | .ok max_growth_idx =>
      match maskFilter (sliceFrom (max_growth_idx : ℤ) t)
          ((sliceFrom (max_growth_idx : ℤ) growth_rate).map
            (fun g => NFloat.ltBool g (NFloat.val threshold))) with
      | s :: _ => .ok (some s)
      | [] => .ok none

/-- The growth-rate value the source computes at a defined index `i ≥ k`
with strictly positive field values:
`(ln field[i] - ln field[i-k]) / (time[i] - time[i-k])`. -/
noncomputable def gval (t phi2 : List ℝ) (k i : ℕ) : ℝ :=
  (Real.log (phi2.getD i 0) - Real.log (phi2.getD (i - k) 0)) /
    (t.getD i 0 - t.getD (i - k) 0)

/-- The entry of the growth-rate array at index `i` as the source computes
it, before any search: NaN below the window offset, and the finite
difference of `np.log` values above it. -/
noncomputable def growthEntry (t phi2 : List ℝ) (k i : ℕ) : NFloat :=
  if i < k then .nan
  else
    NFloat.divR
      (NFloat.sub (npLogVal (phi2.getD i 0)) (npLogVal (phi2.getD (i - k) 0)))
      (t.getD i 0 - t.getD (i - k) 0)

/-! ## The dataset accessor and the plot renderers -/

/-- Variable and coordinate names used by the renderers. -/
def name_t : String := "t"

/-- The `phi2` variable name. -/
def name_phi2 : String := "phi2"

/-- The `apar2` variable name. -/
def name_apar2 : String := "apar2"

/-- The `bpar2` variable name. -/
def name_bpar2 : String := "bpar2"

/-- The `kx` coordinate name. -/
def name_kx : String := "kx"

/-- The `ky` coordinate name. -/
def name_ky : String := "ky"

/-- The `theta` coordinate name. -/
def name_theta : String := "theta"

/-- The `phi2_by_mode` variable name. -/
def name_phi2_by_mode : String := "phi2_by_mode"

/-- The `apar2_by_mode` variable name. -/
def name_apar2_by_mode : String := "apar2_by_mode"

/-- The `bpar2_by_mode` variable name. -/
def name_bpar2_by_mode : String := "bpar2_by_mode"

/-- The `kinetic_energy_transfer_theta` variable name. -/
def name_ket : String := "kinetic_energy_transfer_theta"

/-- The `entropy_transfer_phi_theta` variable name. -/
def name_etp : String := "entropy_transfer_phi_theta"

/-- The `entropy_transfer_apar_theta` variable name. -/
def name_eta : String := "entropy_transfer_apar_theta"

/-- The `entropy_transfer_bpar_theta` variable name. -/
def name_etb : String := "entropy_transfer_bpar_theta"

/-- An xarray dataset, restricted to what the renderers consume: 1-D arrays
(coordinates and time traces) and arrays with a leading time dimension,
viewed as a list of per-time rows (the trailing dimensions of a row are
irrelevant to control flow and are flattened). -/
structure Dataset where
  arrays1d : List (String × List ℝ)
  arrays2d : List (String × List (List ℝ))

/-- Python `name in ds`. -/
def Dataset.has (ds : Dataset) (name : String) : Bool :=
  (ds.arrays1d.lookup name).isSome || (ds.arrays2d.lookup name).isSome

/-- `ds[name].values` for a 1-D variable: `KeyError` when absent. -/
def Dataset.getVar1 (ds : Dataset) (name : String) : Except PyErr (List ℝ) :=
  match ds.arrays1d.lookup name with
  | some a => .ok a
  | none => .error .keyError

/-- `ds[name]` for a time-indexed variable: `KeyError` when absent. -/
def Dataset.getVar2 (ds : Dataset) (name : String) : Except PyErr (List (List ℝ)) :=
  match ds.arrays2d.lookup name with
  | some a => .ok a
  | none => .error .keyError

/-- `da.isel(t=-1)`: the last time row, `IndexError` on an empty time axis. -/
def iselLast (rows : List (List ℝ)) : Except PyErr (List ℝ) :=
  match rows.getLast? with
  | some r => .ok r
  | none => .error .indexError

/-- `detect_saturation_time(ds, window, threshold)` as the source defines it:
extract `ds["t"]` and `ds["phi2"]` (a `KeyError` when either is absent) and
run the numeric core. -/
noncomputable def detect_saturation_time_ds (ds : Dataset) (window threshold : ℝ) :
    Except PyErr (Option ℝ) :=
  match ds.getVar1 name_t with
  | .error e => .error e
  | .ok t =>
    match ds.getVar1 name_phi2 with
    | .error e => .error e
    | .ok phi2 => detect_saturation_time t phi2 window threshold

/-- `plot_fields_time_traces` (`fields.py` lines 12-83): select the enabled
fields, call the saturation detector, extract `t`, draw one trace per enabled
field, overlay the saturation marker when one was found, save the figure and
return the output path.  Figure drawing and saving are elided; every dataset
access is kept in source order. -/
noncomputable def plot_fields_time_traces (ds : Dataset) (output_dir : String)
    (filename : Option String) (window threshold : ℝ) : Except PyErr String :=
  let fields := [name_phi2, name_apar2, name_bpar2].filter ds.has
  match detect_saturation_time_ds ds window threshold with
  | .error e => .error e
  | .ok _tsat =>
    let filename := filename.getD "field_time_traces.png"
    match ds.getVar1 name_t with
    | .error e => .error e
    | .ok _t =>
      match fields.mapM ds.getVar1 with
      | .error e => .error e
      | .ok _traces => .ok (output_dir ++ "/" ++ filename)

/-- `plot_fields_by_mode` (`fields.py` lines 86-155): select the enabled
by-mode fields, extract `kx` and `ky`, and for each of the three candidate
subplots either plot the last-time-step spectrum (when the field is enabled)
or hide the subplot; save and return the path.  The pure `fftshift`
re-ordering cannot raise and is elided. -/
def plot_fields_by_mode (ds : Dataset) (output_dir : String)
    (filename : Option String) : Except PyErr String :=
  let all_fields := [name_phi2_by_mode, name_apar2_by_mode, name_bpar2_by_mode]
  let fields := all_fields.filter ds.has
  let filename := filename.getD "fields_by_mode.png"
  match ds.getVar1 name_kx with
  | .error e => .error e
  | .ok _kx =>
    match ds.getVar1 name_ky with
    | .error e => .error e
    | .ok _ky =>
      match all_fields.mapM (fun f =>
          (if fields.contains f then
            match ds.getVar2 f with
            | .error e => .error e
            | .ok rows =>
              match iselLast rows with
              | .error e => .error e
              | .ok _data => .ok ()
          else .ok () : Except PyErr Unit)) with
      | .error e => .error e
      | .ok _ => .ok (output_dir ++ "/" ++ filename)

/-- The fixed candidate list of transfer diagnostics (`transfer.py`). -/
def allDiags : List String := [name_ket, name_etp, name_eta, name_etb]

/-- `plot_transfer_by_theta` (`transfer.py` lines 11-81): select the enabled
transfer diagnostics, extract `theta`, plot the last time step of each
enabled diagnostic, save and return the path. -/
def plot_transfer_by_theta (ds : Dataset) (output_dir : String)
    (filename : Option String) : Except PyErr String :=
  let enabled_diagnostics := allDiags.filter ds.has
  let filename := filename.getD "transfer_by_theta.png"
  match ds.getVar1 name_theta with
  | .error e => .error e
  | .ok _theta =>
    match enabled_diagnostics.mapM (fun d =>
        (match ds.getVar2 d with
        | .error e => .error e
        | .ok rows =>
          match iselLast rows with
          | .error e => .error e
          | .ok _profile => .ok () : Except PyErr Unit)) with
    | .error e => .error e
    | .ok _ => .ok (output_dir ++ "/" ++ filename)

/-- `np.searchsorted(t, a, side="left")` on a sorted coordinate: the number
of elements strictly below `a` (pandas uses this to resolve the left end of
a label slice). -/
noncomputable def searchsortedLeft (t : List ℝ) (a : ℝ) : ℕ :=
  t.countP (fun x => decide (x < a))

/-- `np.searchsorted(t, b, side="right")` on a sorted coordinate: the number
of elements at most `b` (pandas uses this to resolve the right end of a
label slice, which makes the slice closed on the right). -/
noncomputable def searchsortedRight (t : List ℝ) (b : ℝ) : ℕ :=
  t.countP (fun x => decide (x ≤ b))

/-- `da.sel(t=slice(a, b))` on data whose leading dimension is the
monotonically increasing coordinate `t`: keep the contiguous block of rows
from `searchsorted(t, a, left)` to `searchsorted(t, b, right)`. -/
noncomputable def xrSelTimeSlice (t : List ℝ) (a b : ℝ) (rows : List α) : List α :=
  (rows.drop (searchsortedLeft t a)).take (searchsortedRight t b - searchsortedLeft t a)

/-- `np.mean` of a 1-D array: the mean over an empty axis is NaN. -/
noncomputable def npMean (xs : List ℝ) : NFloat :=
  if xs.length = 0 then .nan else .val (xs.sum / xs.length)

/-- `.mean(dim="t")` of a `(t, theta)` array given as time rows: the
per-theta-column mean over the selected rows. -/
noncomputable def colMean (ncols : ℕ) (rows : List (List ℝ)) : List NFloat :=
  (List.range ncols).map (fun j => npMean (rows.map (fun r => r.getD j 0)))

/-- The per-diagnostic averaged profiles computed by
`plot_transfer_by_theta_averaged` (`transfer.py` lines 113-151): resolve
`tstart` (the last time minus the window when `None`), set
`tend = tstart + window`, and average each enabled diagnostic over
`sel(t=slice(tstart, tend))`.  The `t` coordinate is the one `sel` aligns
against; `theta` gives the output width. -/
noncomputable def averagedProfiles (ds : Dataset) (window : ℝ)
    (tstart : Option ℝ) : Except PyErr (List (List NFloat)) :=
  let enabled_diagnostics := allDiags.filter ds.has
  match (match tstart with
        | some s => .ok s
        | none =>
          match ds.getVar1 name_t with
          | .error e => .error e
          | .ok tarr =>
            match tarr.getLast? with
            | some tl => .ok (tl - window)
            | none => .error .indexError : Except PyErr ℝ) with
  | .error e => .error e
  | .ok tstart =>
    let tend := tstart + window
    match ds.getVar1 name_t with
    | .error e => .error e
    | .ok tarr =>
      match ds.getVar1 name_theta with
      | .error e => .error e
      | .ok theta =>
        enabled_diagnostics.mapM (fun d =>
          match ds.getVar2 d with
          | .error e => .error e
          | .ok rows => .ok (colMean theta.length (xrSelTimeSlice tarr tstart tend rows)))

/-- `plot_transfer_by_theta_averaged` (`transfer.py` lines 84-165): compute
the averaged profiles, plot them, save and return the path. -/
noncomputable def plot_transfer_by_theta_averaged (ds : Dataset) (window : ℝ)
    (tstart : Option ℝ) (output_dir : String) (filename : Option String) :
    Except PyErr String :=
  match averagedProfiles ds window tstart with
  | .error e => .error e
  | .ok _profiles => .ok (output_dir ++ "/" ++ (filename.getD "transfer_by_theta_averaged.png"))

/-! ## Order facts for the modelled float comparison -/

/-- IEEE less-than is irreflexive. -/
theorem NFloat.ltBool_irrefl (a : NFloat) : a.ltBool a = false := by
  cases a <;> simp [NFloat.ltBool]

/-- IEEE less-than is asymmetric. -/
theorem NFloat.ltBool_asymm {a b : NFloat} (h : a.ltBool b = true) :
    b.ltBool a = false := by
  cases a <;> cases b <;> simp_all [NFloat.ltBool] <;> linarith

/-- IEEE less-than is transitive. -/
theorem NFloat.ltBool_trans {a b c : NFloat} (h1 : a.ltBool b = true)
    (h2 : b.ltBool c = true) : a.ltBool c = true := by
  cases a <;> cases b <;> cases c <;> simp_all [NFloat.ltBool] <;> linarith

/-- On non-NaN values IEEE less-than is total: a value not above `b` is
below anything `b` is below. -/
theorem NFloat.ltBool_of_not_lt {a b v : NFloat} (ha : a.isNan = false)
    (h1 : b.ltBool a = false) (h2 : b.ltBool v = true) : a.ltBool v = true := by
  cases a <;> cases b <;> cases v <;> simp_all [NFloat.ltBool, NFloat.isNan] <;> linarith

/-! ## Small list access lemmas -/

/-- Evaluate `getD` inside the list. -/
theorem getD_of_lt (l : List α) (i : ℕ) (d : α) (h : i < l.length) :
    l.getD i d = l[i] := by
  rw [List.getD_eq_getElem?_getD, List.getElem?_eq_getElem h, Option.getD_some]

/-- A `getD` inside the list is a member. -/
theorem getD_mem_of_lt (l : List α) (i : ℕ) (d : α) (h : i < l.length) :
    l.getD i d ∈ l := by
  rw [getD_of_lt l i d h]; exact List.getElem_mem h

/-- A drop shifts `getD` indices. -/
theorem getD_drop (l : List α) (m j : ℕ) (d : α) :
    (l.drop m).getD j d = l.getD (m + j) d := by
  rw [List.getD_eq_getElem?_getD, List.getD_eq_getElem?_getD, List.getElem?_drop]

/-! ## The first-occurrence argmax specification -/

/-- The argmax scan on NaN-free values returns either its running best or
the position of the first element that strictly beats everything: the result
position holds a maximal value and every earlier scanned element is strictly
below it. -/
theorem argmaxGo_spec (ys : List NFloat) (m : NFloat) (b i : ℕ)
    (hm : m.isNan = false) (hys : ∀ y ∈ ys, y.isNan = false) :
    (argmaxGo ys m b i = b ∧
      ∀ j, j < ys.length → NFloat.ltBool m (ys.getD j .nan) = false)
    ∨ ∃ j, j < ys.length ∧ argmaxGo ys m b i = i + j ∧
        NFloat.ltBool m (ys.getD j .nan) = true ∧
        (∀ j2, j2 < j → NFloat.ltBool (ys.getD j2 .nan) (ys.getD j .nan) = true) ∧
        (∀ j2, j2 < ys.length →
          NFloat.ltBool (ys.getD j .nan) (ys.getD j2 .nan) = false) := by
  induction ys generalizing m b i with
  | nil =>
    left
    exact ⟨rfl, fun j hj => absurd hj (by simp)⟩
  | cons y ys ih =>
    have hy : y.isNan = false := hys y (List.mem_cons_self y ys)
    have hys' : ∀ z ∈ ys, z.isNan = false := fun z hz => hys z (List.mem_cons_of_mem y hz)
    by_cases hmy : NFloat.ltBool m y = true
    · have hstep : argmaxGo (y :: ys) m b i = argmaxGo ys y i (i + 1) := by
        simp [argmaxGo, hmy]
      rcases ih y i (i + 1) hy hys' with ⟨h1, h2⟩ | ⟨j, hj, hr, hlt, hpre, hmax⟩
      · right
        refine ⟨0, by simp, by simpa using hstep.trans h1, by simpa using hmy, ?_, ?_⟩
        · intro j2 hj2; omega
        · intro j2 hj2
          match j2 with
          | 0 => simpa using NFloat.ltBool_irrefl y
          | j3 + 1 =>
            have := h2 j3 (by simpa using hj2)
            simpa using this
      · right
        refine ⟨j + 1, by simpa using Nat.succ_lt_succ hj, ?_, ?_, ?_, ?_⟩
        · rw [hstep, hr]; omega
        · have : NFloat.ltBool m (ys.getD j .nan) = true := NFloat.ltBool_trans hmy hlt
          simpa using this
        · intro j2 hj2
          match j2 with
          | 0 => simpa using hlt
          | j3 + 1 => simpa using hpre j3 (by omega)
        · intro j2 hj2
          match j2 with
          | 0 => simpa using NFloat.ltBool_asymm hlt
          | j3 + 1 => simpa using hmax j3 (by simpa using hj2)
    · have hmy' : NFloat.ltBool m y = false := by
        simpa using hmy
      have hstep : argmaxGo (y :: ys) m b i = argmaxGo ys m b (i + 1) := by
        simp [argmaxGo, hmy']
      rcases ih m b (i + 1) hm hys' with ⟨h1, h2⟩ | ⟨j, hj, hr, hlt, hpre, hmax⟩
      · left
        refine ⟨hstep.trans h1, ?_⟩
        intro j2 hj2
        match j2 with
        | 0 => simpa using hmy'
        | j3 + 1 => simpa using h2 j3 (by simpa using hj2)
      · right
        refine ⟨j + 1, by simpa using Nat.succ_lt_succ hj, ?_, by simpa using hlt, ?_, ?_⟩
        · rw [hstep, hr]; omega
        · intro j2 hj2
          match j2 with
          | 0 =>
            have : NFloat.ltBool y (ys.getD j .nan) = true :=
              NFloat.ltBool_of_not_lt hy hmy' hlt
            simpa using this
          | j3 + 1 => simpa using hpre j3 (by omega)
        · intro j2 hj2
          match j2 with
          | 0 =>
            have hyv : NFloat.ltBool y (ys.getD j .nan) = true :=
              NFloat.ltBool_of_not_lt hy hmy' hlt
            simpa using NFloat.ltBool_asymm hyv
          | j3 + 1 => simpa using hmax j3 (by simpa using hj2)

/-- `np.argmax` on a nonempty NaN-free array returns the first index of the
maximum: a position inside the array whose value no element beats, with
every earlier element strictly below it. -/
theorem argmaxIdx_spec (xs : List NFloat) (hne : xs ≠ [])
    (hxs : ∀ x ∈ xs, x.isNan = false) :
    argmaxIdx xs < xs.length ∧
    (∀ j, j < xs.length →
      NFloat.ltBool (xs.getD (argmaxIdx xs) .nan) (xs.getD j .nan) = false) ∧
    (∀ j, j < argmaxIdx xs →
      NFloat.ltBool (xs.getD j .nan) (xs.getD (argmaxIdx xs) .nan) = true) := by
  match xs, hne with
  | x :: xs', _ =>
    have hx : x.isNan = false := hxs x (List.mem_cons_self x xs')
    have hxs' : ∀ z ∈ xs', z.isNan = false := fun z hz => hxs z (List.mem_cons_of_mem x hz)
    have hidx : argmaxIdx (x :: xs') = argmaxGo xs' x 0 1 := rfl
    rcases argmaxGo_spec xs' x 0 1 hx hxs' with ⟨h1, h2⟩ | ⟨j, hj, hr, hlt, hpre, hmax⟩
    · rw [hidx, h1]
      refine ⟨by simp, ?_, ?_⟩
      · intro j hjl
        match j with
        | 0 => simpa using NFloat.ltBool_irrefl x
        | j2 + 1 => simpa using h2 j2 (by simpa using hjl)
      · intro j hjl; omega
    · have hr2 : argmaxIdx (x :: xs') = j + 1 := by rw [hidx, hr]; omega
      rw [hr2]
      refine ⟨by simpa using Nat.succ_lt_succ hj, ?_, ?_⟩
      · intro j2 hj2
        match j2 with
        | 0 => simpa using NFloat.ltBool_asymm hlt
        | j3 + 1 => simpa using hmax j3 (by simpa using hj2)
      · intro j2 hj2
        match j2 with
        | 0 => simpa using hlt
        | j3 + 1 => simpa using hpre j3 (by omega)

/-! ## The boolean-mask selection specification -/

/-- Boolean-mask selection of aligned arrays: either the mask is everywhere
false and nothing is selected, or the head of the selection is the element at
the first true mask position. -/
theorem maskFilter_spec (xs : List α) (bs : List Bool) (d : α)
    (hl : xs.length = bs.length) :
    (maskFilter xs bs = [] ∧ ∀ j, j < bs.length → bs.getD j false = false)
    ∨ ∃ j, j < bs.length ∧ bs.getD j false = true ∧
        (∀ j2, j2 < j → bs.getD j2 false = false) ∧
        ∃ rest, maskFilter xs bs = xs.getD j d :: rest := by
  induction xs generalizing bs with
  | nil =>
    have : bs = [] := by
      cases bs with
      | nil => rfl
      | cons b bs' => simp at hl
    subst this
    left
    exact ⟨rfl, fun j hj => absurd hj (by simp)⟩
  | cons x xs ih =>
    cases bs with
    | nil => simp at hl
    | cons b bs' =>
      have hl' : xs.length = bs'.length := by simpa using hl
      cases b with
      | true =>
        right
        exact ⟨0, by simp, by simp, fun j2 hj2 => absurd hj2 (by omega),
          maskFilter xs bs', by simp [maskFilter]⟩
      | false =>
        rcases ih bs' hl' with ⟨h1, h2⟩ | ⟨j, hj, hb, hpre, rest, hrest⟩
        · left
          refine ⟨by simpa [maskFilter] using h1, ?_⟩
          intro j hjl
          match j with
          | 0 => simp
          | j2 + 1 => simpa using h2 j2 (by simpa using hjl)
        · right
          refine ⟨j + 1, by simpa using Nat.succ_lt_succ hj, by simpa using hb, ?_, rest, ?_⟩
          · intro j2 hj2
            match j2 with
            | 0 => simp
            | j3 + 1 => simpa using hpre j3 (by omega)
          · simpa [maskFilter] using hrest

/-! ## More getD evaluation lemmas -/

/-- Evaluate `getD` through `take` inside the taken prefix. -/
theorem getD_take (l : List α) (n j : ℕ) (d : α) (h : j < n) :
    (l.take n).getD j d = l.getD j d := by
  rw [List.getD_eq_getElem?_getD, List.getD_eq_getElem?_getD, List.getElem?_take,
    if_pos h]

/-- Evaluate `getD` through `zipWith` inside both ranges. -/
theorem getD_zipWith (f : α → β → γ) (as : List α) (bs : List β) (j : ℕ)
    (da : α) (db : β) (d : γ) (ha : j < as.length) (hb : j < bs.length) :
    (List.zipWith f as bs).getD j d = f (as.getD j da) (bs.getD j db) := by
  rw [getD_of_lt _ _ _ (by simp [Nat.lt_min.mpr ⟨ha, hb⟩]), List.getElem_zipWith,
    getD_of_lt _ _ _ ha, getD_of_lt _ _ _ hb]

/-- Evaluate `getD` through `map` inside the range. -/
theorem getD_map (f : α → β) (l : List α) (j : ℕ) (da : α) (d : β)
    (h : j < l.length) :
    (l.map f).getD j d = f (l.getD j da) := by
  rw [getD_of_lt _ _ _ (by simpa using h), List.getElem_map, getD_of_lt _ _ _ h]

/-- Evaluate `getD` through an append, left part. -/
theorem getD_append_left (l1 l2 : List α) (j : ℕ) (d : α) (h : j < l1.length) :
    (l1 ++ l2).getD j d = l1.getD j d := by
  rw [List.getD_eq_getElem?_getD, List.getD_eq_getElem?_getD,
    List.getElem?_append, if_pos h]

/-- Evaluate `getD` through an append, right part. -/
theorem getD_append_right (l1 l2 : List α) (j : ℕ) (d : α) (h : l1.length ≤ j) :
    (l1 ++ l2).getD j d = l2.getD (j - l1.length) d := by
  rw [List.getD_eq_getElem?_getD, List.getD_eq_getElem?_getD,
    List.getElem?_append, if_neg (by omega)]

/-- Evaluate `getD` on `replicate` inside the range. -/
theorem getD_replicate (n j : ℕ) (a d : α) (h : j < n) :
    (List.replicate n a).getD j d = a := by
  rw [getD_of_lt _ _ _ (by simpa using h), List.getElem_replicate]

/-- Evaluate `getD` on `range` inside the range. -/
theorem getD_range (n j : ℕ) (d : ℕ) (h : j < n) :
    (List.range n).getD j d = j := by
  rw [getD_of_lt _ _ _ (by simpa using h), List.getElem_range]

/-! ## Evaluating the slicing and broadcasting primitives -/

/-- A slice from a nonnegative start is a drop. -/
theorem sliceFrom_natCast (k : ℕ) (xs : List α) : sliceFrom (k : ℤ) xs = xs.drop k := by
  have h : ¬ ((k : ℤ) < 0) := by omega
  simp [sliceFrom, h]

/-- The slice `xs[:-k]` for positive `k` keeps the first `length - k`
elements. -/
theorem sliceTo_neg_natCast (k : ℕ) (hk : 1 ≤ k) (xs : List α) :
    sliceTo (-(k : ℤ)) xs = xs.take (xs.length - k) := by
  have h1 : (-(k : ℤ)) < 0 := by omega
  have h2 : ((xs.length : ℤ) + -(k : ℤ)).toNat = xs.length - k := by omega
  simp [sliceTo, h1, h2]

/-- Broadcasting equal-length arrays zips them. -/
theorem broadcast2_eq (f : α → β → γ) (xs : List α) (ys : List β)
    (h : xs.length = ys.length) :
    broadcast2 f xs ys = some (List.zipWith f xs ys) := by
  simp [broadcast2, h]

/-- A sliced assignment whose right-hand side exactly fills the slice. -/
theorem assignSlice_exact (base : List α) (k : ℕ) (rhs : List α)
    (h : rhs.length = base.length - k) :
    assignSlice base (k : ℤ) rhs = some (base.take k ++ rhs) := by
  have hneg : ¬ ((k : ℤ) < 0) := by omega
  simp [assignSlice, hneg, h]

/-! ## The growth-rate array under the hypotheses of the specification -/

/-- The assembled growth-rate array equals the per-index `growthEntry`
description. -/
theorem growthArray_entries (t phi2 : List ℝ) (k : ℕ)
    (hlen : phi2.length = t.length) (hk1 : 1 ≤ k) :
    (List.replicate t.length NFloat.nan).take k ++
      List.zipWith NFloat.divR
        (List.zipWith NFloat.sub ((npLog phi2).drop k)
          ((npLog phi2).take ((npLog phi2).length - k)))
        (List.zipWith (fun a b => a - b) (t.drop k) (t.take (t.length - k)))
    = (List.range t.length).map (growthEntry t phi2 k) := by
  simp only [npLog]
  have hL : (phi2.map npLogVal).length = t.length := by simp [hlen]
  apply List.ext_getElem
  · simp [hlen]
    omega
  · intro i h1 h2
    have hiN : i < t.length := by simpa using h2
    rw [← getD_of_lt _ _ NFloat.nan h1, ← getD_of_lt _ _ NFloat.nan h2]
    rw [getD_map _ _ _ 0 _ (by simpa using hiN), getD_range _ _ _ hiN]
    by_cases hik : i < k
    · have hkN : i < ((List.replicate t.length NFloat.nan).take k).length := by
        simp
        omega
      rw [getD_append_left _ _ _ _ hkN, getD_take _ _ _ _ hik,
        getD_replicate _ _ _ _ hiN, growthEntry, if_pos hik]
    · have hkle : k ≤ i := by omega
      have hkN : k ≤ t.length := by omega
      have hlen1 : ((List.replicate t.length NFloat.nan).take k).length = k := by
        simp
        omega
      have hge : ((List.replicate t.length NFloat.nan).take k).length ≤ i := by omega
      rw [getD_append_right _ _ _ _ hge, hlen1]
      have hik2 : i - k < ((phi2.map npLogVal).drop k).length := by simp [hlen]; omega
      have hik3 : i - k < ((phi2.map npLogVal).take ((phi2.map npLogVal).length - k)).length := by
        simp [hlen]; omega
      have hik4 : i - k < (t.drop k).length := by simp; omega
      have hik5 : i - k < (t.take (t.length - k)).length := by simp; omega
      rw [getD_zipWith _ _ _ _ NFloat.nan 0 _ (by simp [hlen]; omega) (by simp; omega),
        getD_zipWith _ _ _ _ NFloat.nan NFloat.nan _ hik2 hik3,
        getD_zipWith _ _ _ _ (0 : ℝ) (0 : ℝ) _ hik4 hik5]
      rw [getD_drop, getD_drop, getD_take _ _ _ _ (by omega), getD_take _ _ _ _ (by omega)]
      have hady : k + (i - k) = i := by omega
      rw [hady]
      rw [getD_map _ _ _ 0 _ (by omega), getD_map _ _ _ 0 _ (by omega)]
      rw [growthEntry, if_neg hik]

/-- Under the hypotheses of the specification — at least two time samples, a
positive first time step, equal array lengths and a window converting to an
index offset `k ≥ 1` — the growth-rate construction succeeds and produces
exactly the `growthEntry` array. -/
theorem growthRateArr_eq (t phi2 : List ℝ) (window : ℝ) (k : ℕ)
    (hlen : phi2.length = t.length) (hN : 2 ≤ t.length)
    (hdt : t.getD 0 0 < t.getD 1 0)
    (hk : ⌊window / (t.getD 1 0 - t.getD 0 0)⌋ = (k : ℤ))
    (hk1 : 1 ≤ k) :
    growthRateArr t phi2 window =
      .ok ((List.range t.length).map (growthEntry t phi2 k)) := by
  rcases t with _ | ⟨t0, _ | ⟨t1, rest⟩⟩
  · simp at hN
  · simp at hN
  · have hdt' : t0 < t1 := by simpa [List.getD] using hdt
    have hk' : ⌊window / (t1 - t0)⌋ = (k : ℤ) := by simpa [List.getD] using hk
    have hd0 : ¬ (t1 - t0 = 0) := by
      intro h
      have := sub_eq_zero.mp h
      linarith
    have hq0 : ¬ (window / (t1 - t0) < 0) := by
      have h1 : (1 : ℤ) ≤ ⌊window / (t1 - t0)⌋ := by omega
      have h2 : (1 : ℝ) ≤ window / (t1 - t0) := by
        exact_mod_cast Int.le_floor.mp h1
      linarith
    have hidx : pyInt (window / (t1 - t0)) = (k : ℤ) := by
      rw [pyInt, if_neg hq0, hk']
    have hL : (npLog phi2).length = (t0 :: t1 :: rest).length := by simp [npLog, hlen]
    have e1 : broadcast2 NFloat.sub ((npLog phi2).drop k)
        ((npLog phi2).take ((npLog phi2).length - k)) =
        some (List.zipWith NFloat.sub ((npLog phi2).drop k)
          ((npLog phi2).take ((npLog phi2).length - k))) :=
      broadcast2_eq _ _ _ (by simp)
    have e2 : broadcast2 (fun a b => (a : ℝ) - b) ((t0 :: t1 :: rest).drop k)
        ((t0 :: t1 :: rest).take ((t0 :: t1 :: rest).length - k)) =
        some (List.zipWith (fun a b => (a : ℝ) - b) ((t0 :: t1 :: rest).drop k)
          ((t0 :: t1 :: rest).take ((t0 :: t1 :: rest).length - k))) :=
      broadcast2_eq _ _ _ (by simp)
    have e3 : broadcast2 NFloat.divR
        (List.zipWith NFloat.sub ((npLog phi2).drop k)
          ((npLog phi2).take ((npLog phi2).length - k)))
        (List.zipWith (fun a b => (a : ℝ) - b) ((t0 :: t1 :: rest).drop k)
          ((t0 :: t1 :: rest).take ((t0 :: t1 :: rest).length - k))) =
        some (List.zipWith NFloat.divR
          (List.zipWith NFloat.sub ((npLog phi2).drop k)
            ((npLog phi2).take ((npLog phi2).length - k)))
          (List.zipWith (fun a b => (a : ℝ) - b) ((t0 :: t1 :: rest).drop k)
            ((t0 :: t1 :: rest).take ((t0 :: t1 :: rest).length - k)))) :=
      broadcast2_eq _ _ _ (by simp [hL])
    have e4 : assignSlice (List.replicate (t0 :: t1 :: rest).length NFloat.nan) ((k : ℕ) : ℤ)
        (List.zipWith NFloat.divR
          (List.zipWith NFloat.sub ((npLog phi2).drop k)
            ((npLog phi2).take ((npLog phi2).length - k)))
          (List.zipWith (fun a b => (a : ℝ) - b) ((t0 :: t1 :: rest).drop k)
            ((t0 :: t1 :: rest).take ((t0 :: t1 :: rest).length - k)))) =
        some ((List.replicate (t0 :: t1 :: rest).length NFloat.nan).take k ++
          List.zipWith NFloat.divR
            (List.zipWith NFloat.sub ((npLog phi2).drop k)
              ((npLog phi2).take ((npLog phi2).length - k)))
            (List.zipWith (fun a b => (a : ℝ) - b) ((t0 :: t1 :: rest).drop k)
              ((t0 :: t1 :: rest).take ((t0 :: t1 :: rest).length - k)))) :=
      assignSlice_exact _ _ _ (by simp [hL])
    simp only [growthRateArr, if_neg hd0, hidx, sliceFrom_natCast,
      sliceTo_neg_natCast k hk1, e1, e2, e3, e4]
    rw [growthArray_entries _ _ _ hlen hk1]

/-! ## Growth-rate entry classification -/

/-- `np.log` of a positive value. -/
theorem npLogVal_pos {x : ℝ} (h : 0 < x) : npLogVal x = .val (Real.log x) := by
  rw [npLogVal, if_neg (by linarith), if_neg (ne_of_gt h)]

/-- `np.log` of a negative value is NaN. -/
theorem npLogVal_neg {x : ℝ} (h : x < 0) : npLogVal x = .nan := by
  rw [npLogVal, if_pos h]

/-- Subtraction of finite values. -/
theorem NFloat.sub_val (a b : ℝ) : NFloat.sub (.val a) (.val b) = .val (a - b) := rfl

/-- NaN propagates through subtraction on the left. -/
theorem NFloat.sub_nan_left (b : NFloat) : NFloat.sub .nan b = .nan := by
  cases b <;> rfl

/-- NaN propagates through subtraction on the right. -/
theorem NFloat.sub_nan_right (a : NFloat) : NFloat.sub a .nan = .nan := by
  cases a <;> rfl

/-- Division of a finite value by a nonzero real. -/
theorem NFloat.divR_val {x d : ℝ} (hd : d ≠ 0) :
    NFloat.divR (.val x) d = .val (x / d) := by
  simp [NFloat.divR, hd]

/-- NaN propagates through division. -/
theorem NFloat.divR_nan (d : ℝ) : NFloat.divR .nan d = .nan := rfl

/-- A growth-rate entry at an index past the window offset with positive
field values at both window ends is the finite value `gval`. -/
theorem growthEntry_val (t phi2 : List ℝ) (k i : ℕ)
    (hsort : t.Pairwise (· < ·)) (hk1 : 1 ≤ k) (hik : k ≤ i) (hiN : i < t.length)
    (hpi : 0 < phi2.getD i 0) (hpik : 0 < phi2.getD (i - k) 0) :
    growthEntry t phi2 k i = .val (gval t phi2 k i) := by
  have hlt : t.getD (i - k) 0 < t.getD i 0 := by
    have h1 : i - k < i := by omega
    have h2 := List.pairwise_iff_getElem.mp hsort (i - k) i (by omega) hiN h1
    rwa [getD_of_lt _ _ _ (by omega), getD_of_lt _ _ _ hiN]
  have hd : t.getD i 0 - t.getD (i - k) 0 ≠ 0 := by
    intro h
    have := sub_eq_zero.mp h
    linarith
  rw [growthEntry, if_neg (by omega), npLogVal_pos hpi, npLogVal_pos hpik,
    NFloat.sub_val, NFloat.divR_val hd, gval]

/-- A growth-rate entry with a negative field value at either window end is
NaN. -/
theorem growthEntry_nan (t phi2 : List ℝ) (k i : ℕ)
    (h : phi2.getD i 0 < 0 ∨ phi2.getD (i - k) 0 < 0) :
    growthEntry t phi2 k i = .nan := by
  rw [growthEntry]
  by_cases hik : i < k
  · rw [if_pos hik]
  · rw [if_neg hik]
    rcases h with h | h
    · rw [npLogVal_neg h, NFloat.sub_nan_left, NFloat.divR_nan]
    · rw [npLogVal_neg h, NFloat.sub_nan_right, NFloat.divR_nan]

/-- On zero-free field data every growth-rate entry is either the finite
value at a doubly-positive window or NaN. -/
theorem growthEntry_cases (t phi2 : List ℝ) (k i : ℕ)
    (hsort : t.Pairwise (· < ·)) (hk1 : 1 ≤ k) (hlen : phi2.length = t.length)
    (hnz : ∀ x ∈ phi2, x ≠ 0) (hiN : i < t.length) :
    (k ≤ i ∧ 0 < phi2.getD i 0 ∧ 0 < phi2.getD (i - k) 0 ∧
      growthEntry t phi2 k i = .val (gval t phi2 k i))
    ∨ growthEntry t phi2 k i = .nan := by
  by_cases hik : i < k
  · right
    rw [growthEntry, if_pos hik]
  · have h1 : phi2.getD i 0 ≠ 0 := hnz _ (getD_mem_of_lt _ _ _ (by omega))
    have h2 : phi2.getD (i - k) 0 ≠ 0 := hnz _ (getD_mem_of_lt _ _ _ (by omega))
    rcases h1.lt_or_lt with hneg | hpos
    · right
      exact growthEntry_nan _ _ _ _ (Or.inl hneg)
    · rcases h2.lt_or_lt with hneg2 | hpos2
      · right
        exact growthEntry_nan _ _ _ _ (Or.inr hneg2)
      · left
        exact ⟨by omega, hpos, hpos2,
          growthEntry_val _ _ _ _ hsort hk1 (by omega) hiN hpos hpos2⟩

/-! ## Master characterization of the saturation detector -/

/-- Characterization of the full detector run under the hypotheses of the
specification (equal lengths, two or more strictly increasing time samples,
zero-free field values, window offset `1 ≤ k`, at least one doubly-positive
window): the peak index `m` found by `nanargmax` sits on a defined entry,
maximizes the defined growth rates with first-occurrence tie-breaking, and
the threshold scan starting at `m` either returns the time at the first
defined below-threshold index, or the NaN sentinel when no such index
exists. -/
theorem detect_characterization (t phi2 : List ℝ) (window threshold : ℝ) (k : ℕ)
    (hlen : phi2.length = t.length) (hN : 2 ≤ t.length)
    (hsort : t.Pairwise (· < ·))
    (hk : ⌊window / (t.getD 1 0 - t.getD 0 0)⌋ = (k : ℤ))
    (hk1 : 1 ≤ k)
    (hnz : ∀ x ∈ phi2, x ≠ 0)
    (i0 : ℕ) (hi0k : k ≤ i0) (hi0N : i0 < t.length)
    (hp0 : 0 < phi2.getD i0 0) (hp0k : 0 < phi2.getD (i0 - k) 0) :
    ∃ m, k ≤ m ∧ m < t.length ∧ 0 < phi2.getD m 0 ∧ 0 < phi2.getD (m - k) 0 ∧
      nanargmax ((List.range t.length).map (growthEntry t phi2 k)) = .ok m ∧
      (∀ j, k ≤ j → j < t.length → 0 < phi2.getD j 0 → 0 < phi2.getD (j - k) 0 →
        gval t phi2 k j ≤ gval t phi2 k m) ∧
      (∀ j, k ≤ j → j < m → 0 < phi2.getD j 0 → 0 < phi2.getD (j - k) 0 →
        gval t phi2 k j < gval t phi2 k m) ∧
      ((∃ j, m ≤ j ∧ j < t.length ∧ 0 < phi2.getD j 0 ∧ 0 < phi2.getD (j - k) 0 ∧
          gval t phi2 k j < threshold) →
        ∃ i, m ≤ i ∧ i < t.length ∧ 0 < phi2.getD i 0 ∧ 0 < phi2.getD (i - k) 0 ∧
          gval t phi2 k i < threshold ∧
          (∀ j, m ≤ j → j < i → 0 < phi2.getD j 0 → 0 < phi2.getD (j - k) 0 →
            ¬ gval t phi2 k j < threshold) ∧
          detect_saturation_time t phi2 window threshold = .ok (some (t.getD i 0))) ∧
      ((∀ j, m ≤ j → j < t.length → 0 < phi2.getD j 0 → 0 < phi2.getD (j - k) 0 →
          ¬ gval t phi2 k j < threshold) →
        detect_saturation_time t phi2 window threshold = .ok none) := by
  have hdt : t.getD 0 0 < t.getD 1 0 := by
    have h2 := List.pairwise_iff_getElem.mp hsort 0 1 (by omega) (by omega) (by omega)
    rwa [getD_of_lt _ _ _ (by omega), getD_of_lt _ _ _ (by omega)]
  have hG := growthRateArr_eq t phi2 window k hlen hN hdt hk hk1
  set G := (List.range t.length).map (growthEntry t phi2 k) with hGdef
  have hGlen : G.length = t.length := by simp [hGdef]
  have hGget : ∀ j, j < t.length → G.getD j .nan = growthEntry t phi2 k j := by
    intro j hj
    rw [hGdef, getD_map _ _ _ 0 _ (by simpa using hj), getD_range _ _ _ hj]
  have hent0 : growthEntry t phi2 k i0 = .val (gval t phi2 k i0) :=
    growthEntry_val _ _ _ _ hsort hk1 hi0k hi0N hp0 hp0k
  have hnotall : G.all NFloat.isNan = false := by
    by_contra h
    have h' : G.all NFloat.isNan = true := by
      cases hb : G.all NFloat.isNan
      · exact absurd hb h
      · rfl
    have hmem := List.all_eq_true.mp h' (G.getD i0 .nan)
      (getD_mem_of_lt _ _ _ (by omega))
    rw [hGget i0 hi0N, hent0] at hmem
    simp [NFloat.isNan] at hmem
  set S := G.map (fun x => if x.isNan then NFloat.ninf else x) with hSdef
  have hSlen : S.length = t.length := by simp [hSdef, hGlen]
  have hSget : ∀ j, j < t.length →
      S.getD j .nan =
        (if (growthEntry t phi2 k j).isNan then NFloat.ninf else growthEntry t phi2 k j) := by
    intro j hj
    rw [hSdef, getD_map _ _ _ .nan _ (by omega), hGget j hj]
  have hSnonan : ∀ z ∈ S, z.isNan = false := by
    intro z hz
    rcases List.mem_map.mp hz with ⟨x, _, rfl⟩
    cases hx : x.isNan
    · simpa [hx] using hx
    · simp [hx, NFloat.isNan]
  have hSne : S ≠ [] := by
    intro h
    rw [h] at hSlen
    simp at hSlen
    omega
  obtain ⟨hmlt, hmax, hpre⟩ := argmaxIdx_spec S hSne hSnonan
  set m := argmaxIdx S with hmdef
  have hmN : m < t.length := by omega
  have hnan : nanargmax G = .ok m := by
    rw [nanargmax, if_neg (by simp [hnotall])]
  have hSi0 : S.getD i0 .nan = .val (gval t phi2 k i0) := by
    rw [hSget i0 hi0N, hent0]
    simp [NFloat.isNan]
  have hmmax0 := hmax i0 (by omega)
  rcases growthEntry_cases t phi2 k m hsort hk1 hlen hnz hmN with
    ⟨hkm, hp1, hp2, hval⟩ | hnan2
  swap
  · exfalso
    rw [hSi0, hSget m hmN, hnan2] at hmmax0
    simp [NFloat.isNan, NFloat.ltBool] at hmmax0
  have hSm : S.getD m .nan = .val (gval t phi2 k m) := by
    rw [hSget m hmN, hval]
    simp [NFloat.isNan]
  have hmaxd : ∀ j, k ≤ j → j < t.length → 0 < phi2.getD j 0 → 0 < phi2.getD (j - k) 0 →
      gval t phi2 k j ≤ gval t phi2 k m := by
    intro j hjk hjN hpj hpjk
    have hSj : S.getD j .nan = .val (gval t phi2 k j) := by
      rw [hSget j hjN, growthEntry_val _ _ _ _ hsort hk1 hjk hjN hpj hpjk]
      simp [NFloat.isNan]
    have h3 := hmax j (by omega)
    rw [hSm, hSj] at h3
    simp [NFloat.ltBool] at h3
    linarith
  have hpred : ∀ j, k ≤ j → j < m → 0 < phi2.getD j 0 → 0 < phi2.getD (j - k) 0 →
      gval t phi2 k j < gval t phi2 k m := by
    intro j hjk hjm hpj hpjk
    have hSj : S.getD j .nan = .val (gval t phi2 k j) := by
      rw [hSget j (by omega), growthEntry_val _ _ _ _ hsort hk1 hjk (by omega) hpj hpjk]
      simp [NFloat.isNan]
    have h3 := hpre j hjm
    rw [hSm, hSj] at h3
    simpa [NFloat.ltBool] using h3
  have hmask_len : ((G.drop m).map (fun g => NFloat.ltBool g (NFloat.val threshold))).length
      = (t.drop m).length := by
    simp [hGlen]
  have hmaskget : ∀ j, j < t.length - m →
      ((G.drop m).map (fun g => NFloat.ltBool g (NFloat.val threshold))).getD j false =
        NFloat.ltBool (growthEntry t phi2 k (m + j)) (NFloat.val threshold) := by
    intro j hj
    rw [getD_map _ _ _ .nan _ (by simp [hGlen]; omega), getD_drop, hGget (m + j) (by omega)]
  have hspec := maskFilter_spec (t.drop m)
    ((G.drop m).map (fun g => NFloat.ltBool g (NFloat.val threshold))) 0 hmask_len.symm
  refine ⟨m, hkm, hmN, hp1, hp2, hnan, hmaxd, hpred, ?_, ?_⟩
  · rintro ⟨j0, hj0m, hj0N, hpj0, hpj0k, hgj0⟩
    have hentj0 : growthEntry t phi2 k j0 = .val (gval t phi2 k j0) :=
      growthEntry_val _ _ _ _ hsort hk1 (by omega) hj0N hpj0 hpj0k
    rcases hspec with ⟨hnil, hallf⟩ | ⟨j, hjlen, hbj, hbefore, rest, hfil⟩
    · exfalso
      have h4 := hallf (j0 - m) (by simp [hGlen]; omega)
      rw [hmaskget (j0 - m) (by omega)] at h4
      have hr : m + (j0 - m) = j0 := by omega
      rw [hr, hentj0] at h4
      simp [NFloat.ltBool] at h4
      linarith
    · have hjlen' : j < t.length - m := by
        have := hjlen
        rw [hmask_len] at this
        simp at this
        omega
      rw [hmaskget j hjlen'] at hbj
      rcases growthEntry_cases t phi2 k (m + j) hsort hk1 hlen hnz (by omega) with
        ⟨hk2, hpp1, hpp2, hval2⟩ | hnan3
      swap
      · rw [hnan3] at hbj
        simp [NFloat.ltBool] at hbj
      rw [hval2] at hbj
      simp [NFloat.ltBool] at hbj
      refine ⟨m + j, by omega, by omega, hpp1, hpp2, hbj, ?_, ?_⟩
      · intro j2 hj2m hj2i hpj2 hpj2k hglt
        have h5 := hbefore (j2 - m) (by omega)
        rw [hmaskget (j2 - m) (by omega)] at h5
        have hr2 : m + (j2 - m) = j2 := by omega
        rw [hr2, growthEntry_val _ _ _ _ hsort hk1 (by omega) (by omega) hpj2 hpj2k] at h5
        simp [NFloat.ltBool] at h5
        linarith
      · rw [detect_saturation_time]
        simp only [hG, hnan, sliceFrom_natCast]
        rw [hfil, getD_drop]
  · intro hno
    rcases hspec with ⟨hnil, hallf⟩ | ⟨j, hjlen, hbj, hbefore, rest, hfil⟩
    · rw [detect_saturation_time]
      simp only [hG, hnan, sliceFrom_natCast]
      rw [hnil]
    · exfalso
      have hjlen' : j < t.length - m := by
        have := hjlen
        rw [hmask_len] at this
        simp at this
        omega
      rw [hmaskget j hjlen'] at hbj
      rcases growthEntry_cases t phi2 k (m + j) hsort hk1 hlen hnz (by omega) with
        ⟨hk2, hpp1, hpp2, hval2⟩ | hnan3
      swap
      · rw [hnan3] at hbj
        simp [NFloat.ltBool] at hbj
      rw [hval2] at hbj
      simp [NFloat.ltBool] at hbj
      exact hno (m + j) (by omega) (by omega) hpp1 hpp2 hbj

/-! ## Claim theorems -/

/-- C1: for every dataset with strictly increasing time of length `N ≥ 2`,
all field values strictly positive, and `1 ≤ k < N` where
`k = floor(window / (time[1] - time[0]))`: if `detect_saturation_time`
returns a value (not the NaN sentinel), that value equals `time[i*]`, where
`i_peak` is the smallest index attaining the maximum over the defined
growth-rate entries `g[k..N)` and `i*` is the smallest index `i ≥ i_peak`
with `g[i] < threshold`; consequently the result is a literal element of the
time array and is `≥ time[i_peak]`. -/
theorem C1_saturation_structure (t phi2 : List ℝ) (window threshold : ℝ) (k : ℕ)
    (hlen : phi2.length = t.length) (hN : 2 ≤ t.length)
    (hsort : t.Pairwise (· < ·))
    (hpos : ∀ x ∈ phi2, 0 < x)
    (hk : ⌊window / (t.getD 1 0 - t.getD 0 0)⌋ = (k : ℤ))
    (hk1 : 1 ≤ k) (hkN : k < t.length) :
    ∃ ipeak, k ≤ ipeak ∧ ipeak < t.length ∧
      (∀ j, k ≤ j → j < t.length → gval t phi2 k j ≤ gval t phi2 k ipeak) ∧
      (∀ j, k ≤ j → j < ipeak → gval t phi2 k j < gval t phi2 k ipeak) ∧
      ∀ v, detect_saturation_time t phi2 window threshold = .ok (some v) →
        ∃ istar, ipeak ≤ istar ∧ istar < t.length ∧
          gval t phi2 k istar < threshold ∧
          (∀ j, ipeak ≤ j → j < istar → ¬ gval t phi2 k j < threshold) ∧
          v = t.getD istar 0 ∧ v ∈ t ∧ t.getD ipeak 0 ≤ v := by
  have hpnz : ∀ x ∈ phi2, x ≠ 0 := fun x hx => ne_of_gt (hpos x hx)
  have hposD : ∀ i, i < t.length → 0 < phi2.getD i 0 := fun i hi =>
    hpos _ (getD_mem_of_lt _ _ _ (by omega))
  obtain ⟨m, hkm, hmN, _, _, _, hmaxd, hpred, hex, hnone⟩ :=
    detect_characterization t phi2 window threshold k hlen hN hsort hk hk1 hpnz
      k le_rfl hkN (hposD k hkN) (hposD (k - k) (by omega))
  refine ⟨m, hkm, hmN, ?_, ?_, ?_⟩
  · intro j hjk hjN
    exact hmaxd j hjk hjN (hposD j hjN) (hposD (j - k) (by omega))
  · intro j hjk hjm
    exact hpred j hjk hjm (hposD j (by omega)) (hposD (j - k) (by omega))
  · intro v hv
    by_cases hexj : ∃ j, m ≤ j ∧ j < t.length ∧ gval t phi2 k j < threshold
    · obtain ⟨j0, hj0m, hj0N, hg⟩ := hexj
      obtain ⟨i, him, hiN, _, _, hgi, hmin, hdet⟩ :=
        hex ⟨j0, hj0m, hj0N, hposD _ hj0N, hposD _ (by omega), hg⟩
      rw [hdet] at hv
      simp only [Except.ok.injEq, Option.some.injEq] at hv
      refine ⟨i, him, hiN, hgi, ?_, hv.symm, ?_, ?_⟩
      · intro j hmj hji
        exact hmin j hmj hji (hposD j (by omega)) (hposD (j - k) (by omega))
      · rw [← hv]
        exact getD_mem_of_lt _ _ _ hiN
      · rw [← hv]
        rcases eq_or_lt_of_le him with heq | hlt
        · rw [heq]
        · have h2 := List.pairwise_iff_getElem.mp hsort m i hmN hiN hlt
          rw [getD_of_lt _ _ _ hmN, getD_of_lt _ _ _ hiN]
          exact le_of_lt h2
    · push_neg at hexj
      have hdet := hnone (fun j hmj hjN _ _ => not_lt.mpr (hexj j hmj hjN))
      rw [hdet] at hv
      simp at hv

/-- C4: for every dataset with strictly increasing time of length `N ≥ 2`,
strictly positive field values and `1 ≤ k < N` with
`k = floor(window / (time[1] - time[0]))`, the derived growth-rate series
satisfies `g[i] = (ln field[i] - ln field[i-k]) / (time[i] - time[i-k])` for
every index `i` in `[k, N)`, and every index `i < k` is a missing (NaN)
entry, excluded from the peak search (the peak index is always `≥ k`) and
from the threshold scan (a NaN never compares below the threshold). -/
theorem C4_growth_series (t phi2 : List ℝ) (window : ℝ) (threshold : ℝ) (k : ℕ)
    (hlen : phi2.length = t.length) (hN : 2 ≤ t.length)
    (hsort : t.Pairwise (· < ·))
    (hpos : ∀ x ∈ phi2, 0 < x)
    (hk : ⌊window / (t.getD 1 0 - t.getD 0 0)⌋ = (k : ℤ))
    (hk1 : 1 ≤ k) (hkN : k < t.length) :
    ∃ G, growthRateArr t phi2 window = .ok G ∧ G.length = t.length ∧
      (∀ i, i < k → G.getD i .nan = .nan) ∧
      (∀ i, k ≤ i → i < t.length → G.getD i .nan =
        .val ((Real.log (phi2.getD i 0) - Real.log (phi2.getD (i - k) 0)) /
          (t.getD i 0 - t.getD (i - k) 0))) ∧
      (∀ m, nanargmax G = .ok m → k ≤ m) ∧
      (∀ i, i < k → NFloat.ltBool (G.getD i .nan) (.val threshold) = false) := by
  have hpnz : ∀ x ∈ phi2, x ≠ 0 := fun x hx => ne_of_gt (hpos x hx)
  have hposD : ∀ i, i < t.length → 0 < phi2.getD i 0 := fun i hi =>
    hpos _ (getD_mem_of_lt _ _ _ (by omega))
  have hdt : t.getD 0 0 < t.getD 1 0 := by
    have h2 := List.pairwise_iff_getElem.mp hsort 0 1 (by omega) (by omega) (by omega)
    rwa [getD_of_lt _ _ _ (by omega), getD_of_lt _ _ _ (by omega)]
  have hG := growthRateArr_eq t phi2 window k hlen hN hdt hk hk1
  have hGget : ∀ j, j < t.length →
      ((List.range t.length).map (growthEntry t phi2 k)).getD j .nan =
        growthEntry t phi2 k j := by
    intro j hj
    rw [getD_map _ _ _ 0 _ (by simpa using hj), getD_range _ _ _ hj]
  have hGnan : ∀ i, i < k →
      ((List.range t.length).map (growthEntry t phi2 k)).getD i .nan = .nan := by
    intro i hik
    by_cases hiN : i < t.length
    · rw [hGget i hiN, growthEntry, if_pos hik]
    · rw [List.getD_eq_default]
      simpa using hiN
  obtain ⟨m0, hkm0, _, _, _, hnan, _, _, _, _⟩ :=
    detect_characterization t phi2 window threshold k hlen hN hsort hk hk1 hpnz
      k le_rfl hkN (hposD k hkN) (hposD (k - k) (by omega))
  refine ⟨(List.range t.length).map (growthEntry t phi2 k), hG, by simp, hGnan, ?_, ?_, ?_⟩
  · intro i hik hiN
    rw [hGget i hiN,
      growthEntry_val _ _ _ _ hsort hk1 hik hiN (hposD i hiN) (hposD (i - k) (by omega))]
    rw [gval]
  · intro m hm
    rw [hnan] at hm
    simp only [Except.ok.injEq] at hm
    omega
  · intro i hik
    rw [hGnan i hik]
    rfl

/-- C6: for every input with `1 ≤ k < N`, strictly increasing time,
strictly positive field values and a peak index whose growth-rate entries
from the peak onward are all `≥ threshold`, the detector returns the NaN
sentinel (modelled `none`) and does not raise an exception. -/
theorem C6_below_threshold_never (t phi2 : List ℝ) (window threshold : ℝ) (k : ℕ)
    (hlen : phi2.length = t.length) (hN : 2 ≤ t.length)
    (hsort : t.Pairwise (· < ·))
    (hpos : ∀ x ∈ phi2, 0 < x)
    (hk : ⌊window / (t.getD 1 0 - t.getD 0 0)⌋ = (k : ℤ))
    (hk1 : 1 ≤ k) (hkN : k < t.length)
    (hth : ∀ ipeak, k ≤ ipeak → ipeak < t.length →
      (∀ j, k ≤ j → j < t.length → gval t phi2 k j ≤ gval t phi2 k ipeak) →
      (∀ j, k ≤ j → j < ipeak → gval t phi2 k j < gval t phi2 k ipeak) →
      ∀ i, ipeak ≤ i → i < t.length → threshold ≤ gval t phi2 k i) :
    detect_saturation_time t phi2 window threshold = .ok none := by
  have hpnz : ∀ x ∈ phi2, x ≠ 0 := fun x hx => ne_of_gt (hpos x hx)
  have hposD : ∀ i, i < t.length → 0 < phi2.getD i 0 := fun i hi =>
    hpos _ (getD_mem_of_lt _ _ _ (by omega))
  obtain ⟨m, hkm, hmN, _, _, _, hmaxd, hpred, _, hnone⟩ :=
    detect_characterization t phi2 window threshold k hlen hN hsort hk hk1 hpnz
      k le_rfl hkN (hposD k hkN) (hposD (k - k) (by omega))
  have hge := hth m hkm hmN
    (fun j hjk hjN => hmaxd j hjk hjN (hposD j hjN) (hposD (j - k) (by omega)))
    (fun j hjk hjm => hpred j hjk hjm (hposD j (by omega)) (hposD (j - k) (by omega)))
  exact hnone (fun j hmj hjN _ _ => not_lt.mpr (hge j hmj hjN))

/-! ## Concrete inputs for the witnesses -/

/-- A small strictly increasing time array. -/
noncomputable def tW : List ℝ := [0, 1, 2, 3]

/-- A purely exponentially growing field trace on `tW`. -/
noncomputable def phiGrow : List ℝ := [Real.exp 0, Real.exp 1, Real.exp 2, Real.exp 3]

/-- An exponentially growing field trace that flattens at the end. -/
noncomputable def phiSat : List ℝ := [Real.exp 0, Real.exp 1, Real.exp 2, Real.exp 2]

/-- Growth rates of the growing trace are all 1. -/
theorem gval_phiGrow (i : ℕ) (h1 : 1 ≤ i) (h4 : i < 4) :
    gval tW phiGrow 1 i = 1 := by
  interval_cases i <;> norm_num [gval, tW, phiGrow, List.getD, Real.log_exp]

/-- Witness for C1 at `t = [0,1,2,3]`, `field = [1, e, e^2, e^2]`,
`window = 1`, `threshold = 1/2`. -/
theorem C1_saturation_structure_witness :
    ∃ ipeak, 1 ≤ ipeak ∧ ipeak < 4 ∧
      (∀ j, 1 ≤ j → j < 4 → gval tW phiSat 1 j ≤ gval tW phiSat 1 ipeak) ∧
      (∀ j, 1 ≤ j → j < ipeak → gval tW phiSat 1 j < gval tW phiSat 1 ipeak) ∧
      ∀ v, detect_saturation_time tW phiSat 1 (1/2) = .ok (some v) →
        ∃ istar, ipeak ≤ istar ∧ istar < 4 ∧
          gval tW phiSat 1 istar < 1/2 ∧
          (∀ j, ipeak ≤ j → j < istar → ¬ gval tW phiSat 1 j < 1/2) ∧
          v = tW.getD istar 0 ∧ v ∈ tW ∧ tW.getD ipeak 0 ≤ v := by
  exact C1_saturation_structure tW phiSat 1 (1/2) 1
    (by simp [tW, phiSat]) (by simp [tW])
    (by norm_num [tW, List.pairwise_cons])
    (by intro x hx; simp [phiSat] at hx; rcases hx with h | h | h; all_goals subst h; all_goals positivity)
    (by norm_num [tW, List.getD])
    (by norm_num) (by norm_num [tW])

/-- Witness for C4 at `t = [0,1,2,3]`, `field = [1, e, e^2, e^3]`,
`window = 1`, `threshold = 1/2`. -/
theorem C4_growth_series_witness :
    ∃ G, growthRateArr tW phiGrow 1 = .ok G ∧ G.length = 4 ∧
      (∀ i, i < 1 → G.getD i .nan = .nan) ∧
      (∀ i, 1 ≤ i → i < 4 → G.getD i .nan =
        .val ((Real.log (phiGrow.getD i 0) - Real.log (phiGrow.getD (i - 1) 0)) /
          (tW.getD i 0 - tW.getD (i - 1) 0))) ∧
      (∀ m, nanargmax G = .ok m → 1 ≤ m) ∧
      (∀ i, i < 1 → NFloat.ltBool (G.getD i .nan) (.val (1/2)) = false) := by
  exact C4_growth_series tW phiGrow 1 (1/2) 1
    (by simp [tW, phiGrow]) (by simp [tW])
    (by norm_num [tW, List.pairwise_cons])
    (by intro x hx; simp [phiGrow] at hx; rcases hx with h | h | h | h; all_goals subst h; all_goals positivity)
    (by norm_num [tW, List.getD])
    (by norm_num) (by norm_num [tW])

/-- Witness for C6 at `t = [0,1,2,3]`, `field = [1, e, e^2, e^3]`
(a monotonically growing series with growth rate 1 everywhere),
`window = 1`, `threshold = 1/2`: the detector returns the sentinel. -/
theorem C6_below_threshold_never_witness :
    detect_saturation_time tW phiGrow 1 (1/2) = .ok none := by
  apply C6_below_threshold_never tW phiGrow 1 (1/2) 1
    (by simp [tW, phiGrow]) (by simp [tW])
    (by norm_num [tW, List.pairwise_cons])
    (by intro x hx; simp [phiGrow] at hx; rcases hx with h | h | h | h; all_goals subst h; all_goals positivity)
    (by norm_num [tW, List.getD])
    (by norm_num) (by norm_num [tW])
  intro ip hip1 hip4 _ _ i hipi hi4
  rw [gval_phiGrow i (by simp [tW] at hip4 hi4; omega) (by simp [tW] at hi4; exact hi4)]
  norm_num

/-- C2: the claim says that when no growth-rate entry is defined (window
offset at least the series length, or all entries missing from non-positive
field values) the detector returns the sentinel and never raises.  The code
instead reaches `np.nanargmax` with an all-NaN array, which raises
`ValueError`: this theorem evaluates both failing families at concrete
inputs (`t = [0,1]`, `field = [1,1]`, `window = 5`; and `t = [0,1]`,
`field = [-1,-1]`, `window = 1`). -/
theorem C2_allnan_raises :
    detect_saturation_time [(0 : ℝ), 1] [1, 1] 5 (1/10) = .error .valueError ∧
    detect_saturation_time [(0 : ℝ), 1] [-1, -1] 1 (1/10) = .error .valueError := by
  constructor
  · have hG := growthRateArr_eq [(0 : ℝ), 1] [1, 1] 5 5 (by simp) (by simp)
      (by norm_num [List.getD]) (by norm_num [List.getD]) (by norm_num)
    have hGlist : (List.range ([(0 : ℝ), 1]).length).map (growthEntry [(0 : ℝ), 1] [1, 1] 5)
        = [NFloat.nan, NFloat.nan] := by
      norm_num [List.range_succ, growthEntry]
    have hG2 : growthRateArr [(0 : ℝ), 1] [1, 1] 5 = .ok [NFloat.nan, NFloat.nan] := by
      rw [hG, hGlist]
    have hnn : nanargmax [NFloat.nan, NFloat.nan] = .error .valueError := by
      simp [nanargmax, NFloat.isNan]
    simp only [detect_saturation_time, hG2, hnn]
  · have hG := growthRateArr_eq [(0 : ℝ), 1] [-1, -1] 1 1 (by simp) (by simp)
      (by norm_num [List.getD]) (by norm_num [List.getD]) (by norm_num)
    have hGlist : (List.range ([(0 : ℝ), 1]).length).map (growthEntry [(0 : ℝ), 1] [-1, -1] 1)
        = [NFloat.nan, NFloat.nan] := by
      have h1 : growthEntry [(0 : ℝ), 1] [-1, -1] 1 1 = .nan :=
        growthEntry_nan _ _ _ _ (Or.inl (by norm_num [List.getD]))
      have h0 : growthEntry [(0 : ℝ), 1] [-1, -1] 1 0 = .nan := by
        rw [growthEntry, if_pos (by norm_num)]
      norm_num [List.range_succ, h0, h1]
    have hG2 : growthRateArr [(0 : ℝ), 1] [-1, -1] 1 = .ok [NFloat.nan, NFloat.nan] := by
      rw [hG, hGlist]
    have hnn : nanargmax [NFloat.nan, NFloat.nan] = .error .valueError := by
      simp [nanargmax, NFloat.isNan]
    simp only [detect_saturation_time, hG2, hnn]

/-- C10 (implicit): for every dataset with at least two strictly increasing
time samples and a strictly positive window smaller than the first sampling
interval, the window-to-index conversion yields `idx = 0`, the slice
`logphi2[:-0]` is empty, and the vectorised finite difference raises a
broadcast shape-mismatch `ValueError` instead of returning a time or the
sentinel. -/
theorem C10_zero_offset_raises (t phi2 : List ℝ) (window threshold : ℝ)
    (hN : 2 ≤ t.length)
    (hsort : t.Pairwise (· < ·))
    (hw0 : 0 < window) (hw1 : window < t.getD 1 0 - t.getD 0 0) :
    detect_saturation_time t phi2 window threshold = .error .valueError := by
  rcases t with _ | ⟨t0, _ | ⟨t1, rest⟩⟩
  · simp at hN
  · simp at hN
  · have hw1' : window < t1 - t0 := by simpa [List.getD] using hw1
    have hd0 : ¬ (t1 - t0 = 0) := by
      intro h
      rw [h] at hw1'
      linarith
    have hdpos : (0 : ℝ) < t1 - t0 := by linarith
    have hq : pyInt (window / (t1 - t0)) = 0 := by
      have hqpos : 0 < window / (t1 - t0) := div_pos hw0 hdpos
      rw [pyInt, if_neg (by linarith)]
      rw [Int.floor_eq_zero_iff]
      constructor
      · linarith
      · rw [div_lt_one hdpos]
        exact hw1'
    rcases phi2 with _ | ⟨p0, _ | ⟨p1, ps⟩⟩
    · have hgr : growthRateArr (t0 :: t1 :: rest) [] window = .error .valueError := by
        simp only [growthRateArr]
        rw [if_neg hd0, hq]
        rfl
      simp only [detect_saturation_time, hgr]
    · have hgr : growthRateArr (t0 :: t1 :: rest) [p0] window = .error .valueError := by
        simp only [growthRateArr]
        rw [if_neg hd0, hq]
        rfl
      simp only [detect_saturation_time, hgr]
    · have hgr : growthRateArr (t0 :: t1 :: rest) (p0 :: p1 :: ps) window
          = .error .valueError := by
        simp only [growthRateArr]
        rw [if_neg hd0, hq]
        rfl
      simp only [detect_saturation_time, hgr]

/-- Witness for C10 at `t = [0, 10, 20]`, `field = [1, 2, 3]`,
`window = 5 < 10`, `threshold = 1/10`. -/
theorem C10_zero_offset_raises_witness :
    detect_saturation_time [(0 : ℝ), 10, 20] [1, 2, 3] 5 (1/10) = .error .valueError := by
  exact C10_zero_offset_raises [(0 : ℝ), 10, 20] [1, 2, 3] 5 (1/10)
    (by simp) (by norm_num [List.pairwise_cons]) (by norm_num)
    (by norm_num [List.getD])

/-- Field data with a zero value inside an otherwise positive trace. -/
noncomputable def phiZero : List ℝ := [1, 0, 1, 1]

/-- Counterexample to C5 as stated: at `t = [0,1,2,3]`,
`field = [1, 0, 1, 1]`, `window = 1` (so `k = 1`, and the window at index 3
has both field values strictly positive, putting the input inside the
claim's scope), the non-positive value `field[1] = 0` enters the finite
differences at indices 1 and 2, yet the growth-rate entries there are
`-inf` and `+inf` — not NaN: `np.log 0` is `-inf`, which the subtraction
and division propagate as infinities that do participate in the argmax and
in the threshold comparison. -/
theorem C5_counterexample :
    growthRateArr tW phiZero 1 =
      .ok [NFloat.nan, NFloat.ninf, NFloat.pinf, NFloat.val 0] ∧
    NFloat.ninf ≠ NFloat.nan := by
  constructor
  · have hG := growthRateArr_eq tW phiZero 1 1 (by simp [tW, phiZero]) (by simp [tW])
      (by norm_num [tW, List.getD]) (by norm_num [tW, List.getD]) (by norm_num)
    have h0 : growthEntry tW phiZero 1 0 = .nan := by
      rw [growthEntry, if_pos (by norm_num)]
    have h1 : growthEntry tW phiZero 1 1 = .ninf := by
      rw [growthEntry, if_neg (by norm_num)]
      norm_num [tW, phiZero, List.getD, npLogVal, NFloat.sub, NFloat.divR]
    have h2 : growthEntry tW phiZero 1 2 = .pinf := by
      rw [growthEntry, if_neg (by norm_num)]
      norm_num [tW, phiZero, List.getD, npLogVal, NFloat.sub, NFloat.divR]
    have h3 : growthEntry tW phiZero 1 3 = .val 0 := by
      rw [growthEntry, if_neg (by norm_num)]
      norm_num [tW, phiZero, List.getD, npLogVal, NFloat.sub, NFloat.divR, Real.log_one]
    have hlen4 : tW.length = 4 := by simp [tW]
    rw [hG, hlen4]
    norm_num [List.range_succ, h0, h1, h2, h3]
  · simp

/-- C5 (amended): restricted to strictly negative values — on zero-free
field data with strictly increasing time, `1 ≤ k < N` and at least one
window with both field values strictly positive, every strictly negative
field value produces a missing (NaN) growth-rate entry at every index where
it enters the finite difference, the call does not raise, the peak found by
the NaN-ignoring argmax sits on a defined (doubly positive) window, and a
missing entry is never the one selected by the threshold comparison. -/
theorem C5_negative_gives_nan (t phi2 : List ℝ) (window threshold : ℝ) (k : ℕ)
    (hlen : phi2.length = t.length) (hN : 2 ≤ t.length)
    (hsort : t.Pairwise (· < ·))
    (hk : ⌊window / (t.getD 1 0 - t.getD 0 0)⌋ = (k : ℤ))
    (hk1 : 1 ≤ k)
    (hnz : ∀ x ∈ phi2, x ≠ 0)
    (i0 : ℕ) (hi0k : k ≤ i0) (hi0N : i0 < t.length)
    (hp0 : 0 < phi2.getD i0 0) (hp0k : 0 < phi2.getD (i0 - k) 0) :
    ∃ G, growthRateArr t phi2 window = .ok G ∧
      (∀ i, k ≤ i → i < t.length →
        (phi2.getD i 0 < 0 ∨ phi2.getD (i - k) 0 < 0) → G.getD i .nan = .nan) ∧
      ∃ m, nanargmax G = .ok m ∧ k ≤ m ∧ m < t.length ∧
        0 < phi2.getD m 0 ∧ 0 < phi2.getD (m - k) 0 ∧
        ∃ r, detect_saturation_time t phi2 window threshold = .ok r ∧
          ∀ v, r = some v → ∃ i, m ≤ i ∧ i < t.length ∧
            0 < phi2.getD i 0 ∧ 0 < phi2.getD (i - k) 0 ∧
            gval t phi2 k i < threshold ∧ v = t.getD i 0 := by
  have hdt : t.getD 0 0 < t.getD 1 0 := by
    have h2 := List.pairwise_iff_getElem.mp hsort 0 1 (by omega) (by omega) (by omega)
    rwa [getD_of_lt _ _ _ (by omega), getD_of_lt _ _ _ (by omega)]
  have hG := growthRateArr_eq t phi2 window k hlen hN hdt hk hk1
  have hGget : ∀ j, j < t.length →
      ((List.range t.length).map (growthEntry t phi2 k)).getD j .nan =
        growthEntry t phi2 k j := by
    intro j hj
    rw [getD_map _ _ _ 0 _ (by simpa using hj), getD_range _ _ _ hj]
  obtain ⟨m, hkm, hmN, hpm, hpmk, hnan, _, _, hex, hnone⟩ :=
    detect_characterization t phi2 window threshold k hlen hN hsort hk hk1 hnz
      i0 hi0k hi0N hp0 hp0k
  refine ⟨(List.range t.length).map (growthEntry t phi2 k), hG, ?_, m, hnan, hkm, hmN,
    hpm, hpmk, ?_⟩
  · intro i hik hiN hneg
    rw [hGget i hiN]
    exact growthEntry_nan _ _ _ _ hneg
  · by_cases hexj : ∃ j, m ≤ j ∧ j < t.length ∧ 0 < phi2.getD j 0 ∧
        0 < phi2.getD (j - k) 0 ∧ gval t phi2 k j < threshold
    · obtain ⟨i, him, hiN, hp1', hp2', hgi, _, hdet⟩ := hex hexj
      refine ⟨some (t.getD i 0), hdet, ?_⟩
      intro v hv
      simp only [Option.some.injEq] at hv
      exact ⟨i, him, hiN, hp1', hp2', hgi, hv.symm⟩
    · push_neg at hexj
      refine ⟨none, hnone (fun j hmj hjN hpj hpjk => not_lt.mpr (hexj j hmj hjN hpj hpjk)), ?_⟩
      intro v hv
      simp at hv

/-- Field data with a strictly negative value inside a positive trace. -/
noncomputable def phiMixed : List ℝ := [Real.exp 0, -1, Real.exp 2, Real.exp 3]

/-- Witness for the amended C5 at `t = [0,1,2,3]`,
`field = [1, -1, e^2, e^3]`, `window = 1`, `threshold = 1/2`. -/
theorem C5_negative_gives_nan_witness :
    ∃ G, growthRateArr tW phiMixed 1 = .ok G ∧
      (∀ i, 1 ≤ i → i < tW.length →
        (phiMixed.getD i 0 < 0 ∨ phiMixed.getD (i - 1) 0 < 0) → G.getD i .nan = .nan) ∧
      ∃ m, nanargmax G = .ok m ∧ 1 ≤ m ∧ m < tW.length ∧
        0 < phiMixed.getD m 0 ∧ 0 < phiMixed.getD (m - 1) 0 ∧
        ∃ r, detect_saturation_time tW phiMixed 1 (1/2) = .ok r ∧
          ∀ v, r = some v → ∃ i, m ≤ i ∧ i < tW.length ∧
            0 < phiMixed.getD i 0 ∧ 0 < phiMixed.getD (i - 1) 0 ∧
            gval tW phiMixed 1 i < 1/2 ∧ v = tW.getD i 0 := by
  exact C5_negative_gives_nan tW phiMixed 1 (1/2) 1
    (by simp [tW, phiMixed]) (by simp [tW])
    (by norm_num [tW, List.pairwise_cons])
    (by norm_num [tW, List.getD])
    (by norm_num)
    (by
      intro x hx
      simp [phiMixed] at hx
      rcases hx with h | h | h | h
      all_goals subst h
      all_goals norm_num [Real.exp_ne_zero])
    3 (by norm_num) (by simp [tW])
    (by simp [phiMixed, List.getD, Real.exp_pos])
    (by simp [phiMixed, List.getD, Real.exp_pos])

/-- C3: the claim says calls with non-positive window or threshold or
mismatched array lengths fail fast with an `InvalidArgument`-style error at
the boundary.  The source performs no argument validation at all: with a
valid time array and a non-positive threshold the call runs the full
numeric computation and returns the NaN sentinel instead of raising. -/
theorem C3_counterexample :
    detect_saturation_time tW phiGrow 1 (-1) = .ok none := by
  have hnz : ∀ x ∈ phiGrow, x ≠ 0 := by
    intro x hx
    simp [phiGrow] at hx
    rcases hx with h | h | h | h
    all_goals subst h
    all_goals norm_num [Real.exp_ne_zero]
  obtain ⟨m, hkm, hmN, _, _, _, _, _, _, hnone⟩ :=
    detect_characterization tW phiGrow 1 (-1) 1
      (by simp [tW, phiGrow]) (by simp [tW])
      (by norm_num [tW, List.pairwise_cons])
      (by norm_num [tW, List.getD])
      (by norm_num) hnz
      1 le_rfl (by simp [tW])
      (by simp [phiGrow, List.getD, Real.exp_pos])
      (by simp [phiGrow, List.getD, Real.exp_pos])
  apply hnone
  intro j hmj hjN _ _
  rw [gval_phiGrow j (by omega) (by simpa [tW] using hjN)]
  norm_num

/-- Every error the growth-rate construction can raise is an `IndexError`,
an `int()` conversion error or a numpy `ValueError`. -/
theorem growthRateArr_error_cases (t phi2 : List ℝ) (window : ℝ) (e : PyErr)
    (h : growthRateArr t phi2 window = .error e) :
    e = .indexError ∨ e = .conversionError ∨ e = .valueError := by
  unfold growthRateArr at h
  simp only [] at h
  repeat' split at h
  all_goals simp_all

/-- Every error `np.nanargmax` can raise is a `ValueError`. -/
theorem nanargmax_error_cases (xs : List NFloat) (e : PyErr)
    (h : nanargmax xs = .error e) : e = .valueError := by
  unfold nanargmax at h
  split at h
  all_goals simp_all

/-- C3 (amended): the source performs no argument validation whatsoever.
No call of the saturation detector ever fails with the `InvalidArgument`
condition named by the specification: the only exceptions any call can
raise are `IndexError` (fewer than two time samples), the `int()` conversion
error (zero first time step) and numpy `ValueError`s; non-positive `window`
or `threshold` and mismatched lengths are not rejected at the boundary but
flow into the numeric core (see the counterexample, where a call with
`threshold = -1` completes normally and returns the sentinel). -/
theorem C3_no_validation (t phi2 : List ℝ) (window threshold : ℝ) (e : PyErr)
    (h : detect_saturation_time t phi2 window threshold = .error e) :
    e = .indexError ∨ e = .conversionError ∨ e = .valueError := by
  unfold detect_saturation_time at h
  split at h
  · next e2 heq =>
    simp only [Except.error.injEq] at h
    subst h
    exact growthRateArr_error_cases _ _ _ _ heq
  · next growth_rate heq =>
    split at h
    · next e2 heq2 =>
      simp only [Except.error.injEq] at h
      subst h
      exact Or.inr (Or.inr (nanargmax_error_cases _ _ heq2))
    · next m heq2 =>
      split at h
      all_goals simp_all

/-- Witness for C3 (amended): a call with an empty time array raises the
`IndexError` of `t[1]`, one of the three possible error classes. -/
theorem C3_no_validation_witness :
    detect_saturation_time ([] : List ℝ) ([] : List ℝ) 1 1 = .error .indexError ∧
    (PyErr.indexError = .indexError ∨ PyErr.indexError = .conversionError ∨
      PyErr.indexError = .valueError) := by
  have h : detect_saturation_time ([] : List ℝ) ([] : List ℝ) 1 1 = .error .indexError := rfl
  exact ⟨h, C3_no_validation ([] : List ℝ) ([] : List ℝ) 1 1 .indexError h⟩

/-- A dataset with a time coordinate but none of the field variables. -/
noncomputable def dsNoFields : Dataset := ⟨[(name_t, [0, 1])], []⟩

/-- A dataset with only the `kx`, `ky` and `theta` coordinates. -/
noncomputable def dsCoordsOnly : Dataset :=
  ⟨[(name_kx, [0]), (name_ky, [0]), (name_theta, [0])], []⟩

/-- Counterexample to C8 as stated: with `phi2`, `apar2` and `bpar2` all
absent (only `t` present), `plot_fields_time_traces` raises: it calls
`detect_saturation_time(ds)` unconditionally, and `ds["phi2"]` is a
`KeyError`, so the renderer neither produces the figure nor returns a
path. -/
theorem C8_counterexample :
    plot_fields_time_traces dsNoFields "outputs" none 20 (1/10) = .error .keyError := by
  have hdet : detect_saturation_time_ds dsNoFields 20 (1/10) = .error .keyError := rfl
  simp only [plot_fields_time_traces, hdet]

/-- C8 (amended): of the three renderers named by the claim, the two that
do not consult the saturation detector are robust to an empty candidate
set — with the coordinates they plot against present and zero candidate
variables, `plot_fields_by_mode` and `plot_transfer_by_theta` still produce
their figure scaffolding and return the output path.
`plot_fields_time_traces`, however, always calls the saturation detector,
which accesses `ds["phi2"]`; whenever `phi2` is absent the call raises a
`KeyError` instead of returning a path. -/
theorem C8_renderers_no_candidates :
    (∀ (ds : Dataset) (output_dir : String) (filename : Option String)
      (window threshold : ℝ), ds.has name_phi2 = false →
      plot_fields_time_traces ds output_dir filename window threshold
        = .error .keyError) ∧
    (∀ (ds : Dataset) (output_dir : String) (filename : Option String),
      (ds.arrays1d.lookup name_kx).isSome →
      (ds.arrays1d.lookup name_ky).isSome →
      (∀ f ∈ [name_phi2_by_mode, name_apar2_by_mode, name_bpar2_by_mode],
        ds.has f = false) →
      plot_fields_by_mode ds output_dir filename
        = .ok (output_dir ++ "/" ++ filename.getD "fields_by_mode.png")) ∧
    (∀ (ds : Dataset) (output_dir : String) (filename : Option String),
      (ds.arrays1d.lookup name_theta).isSome →
      (∀ d ∈ allDiags, ds.has d = false) →
      plot_transfer_by_theta ds output_dir filename
        = .ok (output_dir ++ "/" ++ filename.getD "transfer_by_theta.png")) := by
  refine ⟨?_, ?_, ?_⟩
  · intro ds output_dir filename window threshold hphi
    have hlook : ds.arrays1d.lookup name_phi2 = none := by
      rcases hL : ds.arrays1d.lookup name_phi2 with _ | v
      · rfl
      · exfalso
        unfold Dataset.has at hphi
        rw [hL] at hphi
        simp at hphi
    have hdet : detect_saturation_time_ds ds window threshold = .error .keyError := by
      unfold detect_saturation_time_ds
      cases hT : ds.getVar1 name_t with
      | error e =>
        unfold Dataset.getVar1 at hT
        cases hL : ds.arrays1d.lookup name_t with
        | none => rw [hL] at hT; simp_all
        | some a => rw [hL] at hT; simp_all
      | ok tarr =>
        simp [Dataset.getVar1, hlook]
    simp only [plot_fields_time_traces, hdet]
  · intro ds output_dir filename hkx hky hnone
    obtain ⟨kxv, hkxv⟩ := Option.isSome_iff_exists.mp hkx
    obtain ⟨kyv, hkyv⟩ := Option.isSome_iff_exists.mp hky
    have h1 : ds.has name_phi2_by_mode = false := hnone _ (by simp)
    have h2 : ds.has name_apar2_by_mode = false := hnone _ (by simp)
    have h3 : ds.has name_bpar2_by_mode = false := hnone _ (by simp)
    have hfil : [name_phi2_by_mode, name_apar2_by_mode, name_bpar2_by_mode].filter ds.has
        = [] := by
      simp [List.filter, h1, h2, h3]
    simp [plot_fields_by_mode, Dataset.getVar1, hkxv, hkyv, hfil, List.mapM, List.mapM.loop]
    rfl
  · intro ds output_dir filename hth hnone
    obtain ⟨thv, hthv⟩ := Option.isSome_iff_exists.mp hth
    have h1 : ds.has name_ket = false := hnone _ (by simp [allDiags])
    have h2 : ds.has name_etp = false := hnone _ (by simp [allDiags])
    have h3 : ds.has name_eta = false := hnone _ (by simp [allDiags])
    have h4 : ds.has name_etb = false := hnone _ (by simp [allDiags])
    have hfil : allDiags.filter ds.has = [] := by
      simp [allDiags, List.filter, h1, h2, h3, h4]
    simp [plot_transfer_by_theta, Dataset.getVar1, hthv, hfil, List.mapM, List.mapM.loop]
    rfl

/-- Witness for the amended C8 at concrete datasets: the time-trace
renderer raises `KeyError` without `phi2`, while the by-mode and transfer
renderers return their output paths with zero candidates. -/
theorem C8_renderers_no_candidates_witness :
    plot_fields_time_traces dsNoFields "out" none 20 (1/10) = .error .keyError ∧
    plot_fields_by_mode dsCoordsOnly "out" none = .ok ("out" ++ "/" ++ "fields_by_mode.png") ∧
    plot_transfer_by_theta dsCoordsOnly "out" none
      = .ok ("out" ++ "/" ++ "transfer_by_theta.png") := by
  refine ⟨?_, ?_, ?_⟩
  · exact C8_renderers_no_candidates.1 dsNoFields "out" none 20 (1/10) rfl
  · exact C8_renderers_no_candidates.2.1 dsCoordsOnly "out" none rfl rfl
      (by intro f hf; simp at hf; rcases hf with rfl | rfl | rfl; all_goals rfl)
  · exact C8_renderers_no_candidates.2.2 dsCoordsOnly "out" none rfl
      (by intro d hd; simp [allDiags] at hd; rcases hd with rfl | rfl | rfl | rfl; all_goals rfl)

/-! ## The closed-interval time selection of the averaged renderer -/

/-- Mask selection from an empty array selects nothing. -/
theorem maskFilter_nil (bs : List Bool) : maskFilter ([] : List α) bs = [] := by
  cases bs <;> rfl

/-- Mask selection with an all-false mask selects nothing. -/
theorem maskFilter_all_false (xs : List α) (bs : List Bool)
    (h : ∀ b ∈ bs, b = false) : maskFilter xs bs = [] := by
  induction xs generalizing bs with
  | nil => exact maskFilter_nil bs
  | cons x xs ih =>
    cases bs with
    | nil => rfl
    | cons b bs' =>
      have hb : b = false := h b (List.mem_cons_self b bs')
      rw [hb, maskFilter, if_neg (by simp)]
      exact ih bs' (fun b2 hb2 => h b2 (List.mem_cons_of_mem b hb2))

/-- On a strictly increasing coordinate, mask selection by `x ≤ b` is a
prefix take of length `countP (x ≤ b)`. -/
theorem maskFilter_le_take (b : ℝ) (ts : List ℝ) (rs : List α)
    (hsort : ts.Pairwise (· < ·)) :
    maskFilter rs (ts.map (fun z => decide (z ≤ b)))
      = rs.take (ts.countP (fun z => decide (z ≤ b))) := by
  induction ts generalizing rs with
  | nil =>
    cases rs with
    | nil => rfl
    | cons r rs' => rfl
  | cons z ts ih =>
    have hsort' : ts.Pairwise (· < ·) := (List.pairwise_cons.mp hsort).2
    have hgt : ∀ w ∈ ts, z < w := (List.pairwise_cons.mp hsort).1
    cases rs with
    | nil => rw [maskFilter_nil, List.take_nil]
    | cons r rs' =>
      by_cases hzb : z ≤ b
      · rw [List.map_cons, maskFilter, if_pos (by simp [hzb]), ih rs' hsort',
          List.countP_cons_of_pos _ _ (by simp [hzb])]
        rfl
      · rw [List.map_cons, maskFilter, if_neg (by simp [hzb]),
          List.countP_cons_of_neg _ _ (by simp [hzb]),
          maskFilter_all_false _ _ (by
            intro b2 hb2
            rcases List.mem_map.mp hb2 with ⟨w, hw, rfl⟩
            have : ¬ w ≤ b := by
              have := hgt w hw
              intro hc
              exact hzb (by linarith)
            simp [this]),
          List.countP_eq_zero.mpr (by
            intro w hw
            have := hgt w hw
            simp only [decide_eq_true_eq]
            intro hc
            exact hzb (by linarith)),
          List.take_zero]

/-- On a strictly increasing time coordinate, the label slice
`sel(t=slice(a, b))` keeps exactly the rows whose time lies in the closed
interval `[a, b]`. -/
theorem xrSel_closed_interval (tarr : List ℝ) (a b : ℝ) (rows : List α)
    (hsort : tarr.Pairwise (· < ·)) (hlen : rows.length = tarr.length) :
    xrSelTimeSlice tarr a b rows =
      maskFilter rows (tarr.map (fun x => decide (a ≤ x) && decide (x ≤ b))) := by
  induction tarr generalizing rows with
  | nil =>
    have : rows = [] := List.length_eq_zero.mp (by simpa using hlen)
    subst this
    rfl
  | cons x ts ih =>
    have hsort' : ts.Pairwise (· < ·) := (List.pairwise_cons.mp hsort).2
    have hgt : ∀ w ∈ ts, x < w := (List.pairwise_cons.mp hsort).1
    cases rows with
    | nil => simp at hlen
    | cons r rs =>
      have hlen' : rs.length = ts.length := by simpa using hlen
      by_cases hxa : x < a
      · have hcl : List.countP (fun z => decide (z < a)) (x :: ts)
            = List.countP (fun z => decide (z < a)) ts + 1 :=
          List.countP_cons_of_pos _ _ (by simp [hxa])
        by_cases hxb : x ≤ b
        · have hcr : List.countP (fun z => decide (z ≤ b)) (x :: ts)
              = List.countP (fun z => decide (z ≤ b)) ts + 1 :=
            List.countP_cons_of_pos _ _ (by simp [hxb])
          rw [xrSelTimeSlice, searchsortedLeft, searchsortedRight, hcl, hcr]
          rw [List.map_cons, maskFilter, if_neg (by simp; intro hc; linarith)]
          have := ih rs hsort' hlen'
          rw [xrSelTimeSlice, searchsortedLeft, searchsortedRight] at this
          rw [← this]
          simp [List.drop_succ_cons, Nat.succ_sub_succ]
        · have hball : ∀ w ∈ x :: ts, ¬ w ≤ b := by
            intro w hw
            rcases List.mem_cons.mp hw with rfl | hw2
            · exact hxb
            · have := hgt w hw2
              intro hc
              exact hxb (by linarith)
          have hcr0 : List.countP (fun z => decide (z ≤ b)) (x :: ts) = 0 :=
            List.countP_eq_zero.mpr (by
              intro w hw
              simp only [decide_eq_true_eq]
              exact hball w hw)
          rw [xrSelTimeSlice, searchsortedLeft, searchsortedRight, hcr0]
          rw [maskFilter_all_false _ _ (by
            intro b2 hb2
            rcases List.mem_map.mp hb2 with ⟨w, hw, rfl⟩
            simp [hball w hw])]
          simp
      · have ha_le : a ≤ x := le_of_not_lt hxa
        have hcl0 : List.countP (fun z => decide (z < a)) (x :: ts) = 0 :=
          List.countP_eq_zero.mpr (by
            intro w hw
            simp only [decide_eq_true_eq]
            rcases List.mem_cons.mp hw with rfl | hw2
            · exact hxa
            · have := hgt w hw2
              intro hc
              linarith)
        by_cases hxb : x ≤ b
        · have hcr : List.countP (fun z => decide (z ≤ b)) (x :: ts)
              = List.countP (fun z => decide (z ≤ b)) ts + 1 :=
            List.countP_cons_of_pos _ _ (by simp [hxb])
          rw [xrSelTimeSlice, searchsortedLeft, searchsortedRight, hcl0, hcr]
          rw [List.map_cons, maskFilter, if_pos (by simp [ha_le, hxb])]
          simp only [List.drop_zero, Nat.sub_zero, List.take_succ_cons]
          congr 1
          have hcongr : ts.map (fun z => decide (a ≤ z) && decide (z ≤ b))
              = ts.map (fun z => decide (z ≤ b)) := by
            apply List.map_congr_left
            intro w hw
            have := hgt w hw
            have haw : a ≤ w := by linarith
            simp [haw]
          rw [hcongr, maskFilter_le_take b ts rs hsort']
        · have hball : ∀ w ∈ x :: ts, ¬ w ≤ b := by
            intro w hw
            rcases List.mem_cons.mp hw with rfl | hw2
            · exact hxb
            · have := hgt w hw2
              intro hc
              exact hxb (by linarith)
          have hcr0 : List.countP (fun z => decide (z ≤ b)) (x :: ts) = 0 :=
            List.countP_eq_zero.mpr (by
              intro w hw
              simp only [decide_eq_true_eq]
              exact hball w hw)
          rw [xrSelTimeSlice, searchsortedLeft, searchsortedRight, hcl0, hcr0]
          rw [maskFilter_all_false _ _ (by
            intro b2 hb2
            rcases List.mem_map.mp hb2 with ⟨w, hw, rfl⟩
            simp [hball w hw])]
          simp

/-- A `mapM` whose body succeeds pointwise succeeds with the mapped list. -/
theorem mapM_ok {ε α β : Type} (l : List α) (f : α → Except ε β) (g : α → β)
    (h : ∀ a ∈ l, f a = .ok (g a)) : l.mapM f = .ok (l.map g) := by
  induction l with
  | nil => rfl
  | cons x xs ih =>
    rw [List.mapM_cons, h x (List.mem_cons_self x xs),
      ih (fun a ha => h a (List.mem_cons_of_mem x ha))]
    rfl

/-- C9: for every call of `plot_transfer_by_theta_averaged` with
`tstart = None` on a dataset whose time coordinate is strictly increasing,
the averaging interval is the closed interval `[t[-1] - window, t[-1]]`:
every enabled diagnostic is averaged over exactly those time rows `i` with
`t[-1] - window ≤ t[i] ≤ t[-1]`, both endpoints included. -/
theorem C9_averaging_window (ds : Dataset) (window : ℝ) (tarr theta : List ℝ)
    (ht : ds.arrays1d.lookup name_t = some tarr)
    (htheta : ds.arrays1d.lookup name_theta = some theta)
    (hsort : tarr.Pairwise (· < ·)) (hne : tarr ≠ [])
    (h2d : ∀ d ∈ allDiags, ds.has d = true →
      ∃ rows, ds.arrays2d.lookup d = some rows ∧ rows.length = tarr.length) :
    averagedProfiles ds window none =
      .ok ((allDiags.filter ds.has).map (fun d =>
        colMean theta.length
          (maskFilter ((ds.arrays2d.lookup d).getD [])
            (tarr.map (fun x => decide (tarr.getLast hne - window ≤ x) &&
              decide (x ≤ tarr.getLast hne)))))) := by
  have hget_t : ds.getVar1 name_t = .ok tarr := by simp [Dataset.getVar1, ht]
  have hget_th : ds.getVar1 name_theta = .ok theta := by simp [Dataset.getVar1, htheta]
  have hlast : tarr.getLast? = some (tarr.getLast hne) := List.getLast?_eq_getLast _ hne
  simp only [averagedProfiles, hget_t, hget_th, hlast]
  apply mapM_ok
  intro d hd
  have hhas : ds.has d = true := by
    have := List.mem_filter.mp hd
    simpa using this.2
  have hdiag : d ∈ allDiags := (List.mem_filter.mp hd).1
  obtain ⟨rows, hrows, hrlen⟩ := h2d d hdiag hhas
  have hget2 : ds.getVar2 d = .ok rows := by simp [Dataset.getVar2, hrows]
  simp only [hget2, hrows, Option.getD_some]
  rw [xrSel_closed_interval tarr _ _ rows hsort hrlen, sub_add_cancel]

/-- A dataset for exercising the averaged renderer: `t = [0, 90, 95, 100]`,
a trivial one-point `theta`, and one enabled transfer diagnostic with one
row per time sample. -/
noncomputable def dsAvg : Dataset :=
  ⟨[(name_t, [0, 90, 95, 100]), (name_theta, [0])],
   [(name_ket, [[1], [2], [3], [4]])]⟩

/-- Witness for C9 at `dsAvg` with `window = 10` and `tstart = None`: the
averaged profiles are computed from exactly the rows with
`100 - 10 ≤ t ≤ 100`. -/
theorem C9_averaging_window_witness :
    averagedProfiles dsAvg 10 none =
      .ok ((allDiags.filter dsAvg.has).map (fun d =>
        colMean ([(0 : ℝ)]).length
          (maskFilter ((dsAvg.arrays2d.lookup d).getD [])
            (([(0 : ℝ), 90, 95, 100]).map
              (fun x => decide (([(0 : ℝ), 90, 95, 100]).getLast (by simp) - 10 ≤ x) &&
                decide (x ≤ ([(0 : ℝ), 90, 95, 100]).getLast (by simp))))))) := by
  exact C9_averaging_window dsAvg 10 [(0 : ℝ), 90, 95, 100] [(0 : ℝ)]
    rfl rfl
    (by norm_num [List.pairwise_cons])
    (by simp)
    (by
      intro d hd hhas
      simp [allDiags] at hd
      rcases hd with rfl | rfl | rfl | rfl
      · exact ⟨[[1], [2], [3], [4]], rfl, by simp [dsAvg]⟩
      all_goals exact absurd hhas (by decide))

/-! ## The end-to-end scenario of the specification -/

/-- The time array `[0, 1, ..., 49]`. -/
noncomputable def t50 : List ℝ := List.map (fun i : ℕ => (i : ℝ)) (List.range 50)

/-- The field `exp(0.5 i)` for `i ≤ 25`, held at `exp(12.5)` afterwards. -/
noncomputable def phi50 : List ℝ :=
  List.map (fun i : ℕ => Real.exp (((min i 25 : ℕ) : ℝ) / 2)) (List.range 50)

/-- Time samples of the end-to-end scenario. -/
theorem t50_getD (i : ℕ) (h : i < 50) : t50.getD i 0 = (i : ℝ) := by
  rw [t50, getD_map _ _ _ 0 _ (by simpa using h), getD_range _ _ _ h]

/-- Field samples of the end-to-end scenario. -/
theorem phi50_getD (i : ℕ) (h : i < 50) :
    phi50.getD i 0 = Real.exp (((min i 25 : ℕ) : ℝ) / 2) := by
  rw [phi50, getD_map _ _ _ 0 _ (by simpa using h), getD_range _ _ _ h]

/-- The scenario field values are strictly positive. -/
theorem phi50_pos : ∀ x ∈ phi50, 0 < x := by
  intro x hx
  rw [phi50] at hx
  rcases List.mem_map.mp hx with ⟨i, _, rfl⟩
  positivity

/-- The scenario time array is strictly increasing. -/
theorem t50_sorted : t50.Pairwise (· < ·) := by
  rw [t50, List.pairwise_map]
  exact (List.pairwise_lt_range 50).imp (fun h => by exact_mod_cast h)

/-- Closed form of the scenario growth rates for `5 ≤ i < 50`. -/
theorem gval50 (i : ℕ) (h5 : 5 ≤ i) (h50 : i < 50) :
    gval t50 phi50 5 i =
      (((min i 25 : ℕ) : ℝ) - ((min (i - 5) 25 : ℕ) : ℝ)) / 10 := by
  rw [gval, phi50_getD i h50, phi50_getD (i - 5) (by omega), t50_getD i h50,
    t50_getD (i - 5) (by omega), Real.log_exp, Real.log_exp, Nat.cast_sub h5]
  push_cast
  ring

/-- The scenario growth rates never exceed `1/2`. -/
theorem gval50_le (i : ℕ) (h5 : 5 ≤ i) (h50 : i < 50) :
    gval t50 phi50 5 i ≤ 1/2 := by
  rw [gval50 i h5 h50]
  have h1 : min i 25 ≤ min (i - 5) 25 + 5 := by omega
  have h1R : ((min i 25 : ℕ) : ℝ) ≤ ((min (i - 5) 25 : ℕ) : ℝ) + 5 := by exact_mod_cast h1
  linarith

/-- The scenario growth rate at the first defined index is `1/2`. -/
theorem gval50_peak : gval t50 phi50 5 5 = 1/2 := by
  rw [gval50 5 (by norm_num) (by norm_num)]
  norm_num [Nat.min_def]

/-- Below index 30 the scenario growth rate never drops below `1/10`. -/
theorem gval50_ge (i : ℕ) (h5 : 5 ≤ i) (h30 : i < 30) :
    ¬ gval t50 phi50 5 i < 1/10 := by
  rw [gval50 i h5 (by omega)]
  have h1 : min (i - 5) 25 + 1 ≤ min i 25 := by omega
  have h1R : ((min (i - 5) 25 : ℕ) : ℝ) + 1 ≤ ((min i 25 : ℕ) : ℝ) := by exact_mod_cast h1
  intro hc
  have h2 : ((min i 25 : ℕ) : ℝ) - ((min (i - 5) 25 : ℕ) : ℝ) < 1 := by linarith
  linarith

/-- At index 30 the scenario growth rate has dropped below `1/10`. -/
theorem gval50_at30 : gval t50 phi50 5 30 < 1/10 := by
  rw [gval50 30 (by norm_num) (by norm_num)]
  norm_num [Nat.min_def]

/-- C7: for `time = [0, ..., 49]`, `field[i] = exp(0.5 i)` for `i ≤ 25` held
constant afterwards, `window = 5` and `threshold = 0.1`, the detector
returns a saturation time, and that value lies in the closed interval
`[25, 30]` (it is exactly `30`). -/
theorem C7_end_to_end :
    ∃ v, detect_saturation_time t50 phi50 5 (0.1) = .ok (some v) ∧
      25 ≤ v ∧ v ≤ 30 := by
  have hlen50 : t50.length = 50 := by simp [t50]
  have hplen50 : phi50.length = 50 := by simp [phi50]
  have hposD : ∀ i, i < 50 → 0 < phi50.getD i 0 := by
    intro i hi
    exact phi50_pos _ (getD_mem_of_lt _ _ _ (by omega))
  have h01 : (0.1 : ℝ) = 1/10 := by norm_num
  obtain ⟨m, hkm, hmN, _, _, _, hmaxd, hpred, hex, _⟩ :=
    detect_characterization t50 phi50 5 (0.1) 5
      (by rw [hlen50, hplen50]) (by rw [hlen50]; norm_num) t50_sorted
      (by rw [t50_getD 1 (by norm_num), t50_getD 0 (by norm_num)]; norm_num)
      (by norm_num)
      (fun x hx => ne_of_gt (phi50_pos x hx))
      5 le_rfl (by rw [hlen50]; norm_num)
      (hposD 5 (by norm_num)) (hposD (5 - 5) (by norm_num))
  have hm50 : m < 50 := by rw [hlen50] at hmN; exact hmN
  have hm5 : m = 5 := by
    by_contra hne5
    have h5lt : 5 < m := by omega
    have h1 := hpred 5 le_rfl h5lt (hposD 5 (by norm_num)) (hposD 0 (by norm_num))
    rw [gval50_peak] at h1
    have h2 := gval50_le m hkm hm50
    linarith
  subst hm5
  obtain ⟨i, him, hiN, _, _, hgi, hmin, hdet⟩ := hex
    ⟨30, by norm_num, by rw [hlen50]; norm_num,
      hposD 30 (by norm_num), hposD (30 - 5) (by norm_num),
      by rw [h01]; exact gval50_at30⟩
  have hi50 : i < 50 := by rw [hlen50] at hiN; exact hiN
  have hi30 : i = 30 := by
    by_contra h
    rcases lt_or_gt_of_ne h with hlt | hgt
    · exact gval50_ge i him hlt (by rw [h01] at hgi; exact hgi)
    · exact (hmin 30 (by norm_num) hgt (hposD 30 (by norm_num))
        (hposD (30 - 5) (by norm_num))) (by rw [h01]; exact gval50_at30)
  subst hi30
  refine ⟨t50.getD 30 0, hdet, ?_, ?_⟩
  · rw [t50_getD 30 (by norm_num)]
    norm_num
  · rw [t50_getD 30 (by norm_num)]
    norm_num
